import Mathlib

/-!
Vector (src/list_stack_queue/Vector/Vector.cpp)

A shallow embedding of the class template `Vector<T>`.

* A C++ `int` is a Lean `Int` kept between `INT_MIN` and `INT_MAX` (32 bits).
  Signed overflow is undefined behaviour: the expressions of the class that
  can overflow (`initSize + SPARE_CAPACITY`, `newSize * 2 + 1`,
  `2 * theCapacity + 1`, `theSize++`, `theSize - 1`) go through `checkInt`,
  which reports a result out of range as `Fault.undefinedBehaviour`.
* A `Vector` object is its three data members; `objects` is the address of an
  array on the heap.  The store holds the objects and the heap arrays, so that
  two objects and their buffers can be told apart.
* `new T[n]` throws for a negative `n` and otherwise yields `n` slots.  It
  default-initialises them: a slot holds what `Store.uninit` says the memory
  holds there, which for `int` is whatever was left behind and for a class type
  the default-constructed value.
* The parameter `const T& x` of `push_back` is a reference (`Ref`): to an object
  outside every heap array, or to a slot of a heap array, which `push_back`
  reads after `reserve` has run.
* An access outside an allocated array is undefined behaviour; the model
  reports it as `Fault.undefinedBehaviour` instead of continuing.
* `assignOrThrow` is `operator=` in a run where `new T[n]` or the copy
  assignment of an element may throw; it keeps the store an exception leaves
  behind.
* `copyElemsCounted`, `reserveCounted`, `push_backCounted` and `pushAllCounted`
  are the copy loop and its callers returning, with the store, the number of
  elements copied.
-/

namespace DataStructure

/-- Ways in which a member function does not complete normally. -/
inductive Fault where
  /-- The exception `new T[n]` throws when `n` is negative. -/
  | badArrayNewLength
  /-- An access outside a live array: the program has no defined behaviour. -/
  | undefinedBehaviour
deriving DecidableEq, Repr

/-- Data members of `Vector<T>`: `theSize`, `theCapacity`, and `objects`, the
heap address of the buffer. -/
structure Vector where
  theSize : Int
  theCapacity : Int
  objects : Nat
deriving DecidableEq, Repr

/-- Program state: the `Vector` objects, by the address of the object (`this`),
and the heap.  The heap lists, by
address, every array handed out so far: `some arr` while it is live, `none` once
it has been released.  `uninit p i` is the value the memory of slot `i` of the
array at address `p` holds when `new T[n]` hands that array out. -/
structure Store (T : Type) where
  vec : Nat → Vector
  heap : List (Option (List T))
  uninit : Nat → Nat → T

/-- The constant `SPARE_CAPACITY`. -/
def SPARE_CAPACITY : Int := 16

/-- The largest `int`. -/
def INT_MAX : Int := 2147483647

/-- The smallest `int`. -/
def INT_MIN : Int := -2147483648

/-- The result of an `int` operation whose mathematical value is `n`: the value
itself when it is an `int`, undefined behaviour when it overflows. -/
def checkInt (n : Int) : Except Fault Int :=
  if INT_MIN ≤ n ∧ n ≤ INT_MAX then .ok n else .error .undefinedBehaviour

/-- The `int` expressions `2 * c + 1` and `c * 2 + 1`: a product, then a sum. -/
def twicePlusOne (c : Int) : Except Fault Int :=
  match checkInt (2 * c) with
  | .error e => .error e
  | .ok d => checkInt (d + 1)

section Memory

variable {T : Type}

/-- Overwrite the data members of the object `a`. -/
def Store.setVec (s : Store T) (a : Nat) (v : Vector) : Store T :=
  { s with vec := fun b => if b = a then v else s.vec b }

/-- Overwrite the heap cell at address `p`. -/
def Store.setHeap (s : Store T) (p : Nat) (c : Option (List T)) : Store T :=
  { s with heap := s.heap.set p c }

/-- The array living at address `p`, if there is one. -/
def Store.cell (s : Store T) (p : Nat) : Option (List T) :=
  match s.heap[p]? with
  | some c => c
  | none => none

/-- The expression `new T[n]`: throws for a negative length, otherwise returns a
fresh address with `n` slots, each holding what its memory held. -/
def newArray (s : Store T) (n : Int) : Except Fault (Nat × Store T) :=
  if n < 0 then .error .badArrayNewLength
  else .ok (s.heap.length,
    { s with heap := s.heap ++ [some ((List.range n.toNat).map (s.uninit s.heap.length))] })

/-- The statement `delete[] p`. -/
def deleteArray (s : Store T) (p : Nat) : Except Fault (Store T) :=
  match s.cell p with
  | none => .error .undefinedBehaviour
  | some _ => .ok (s.setHeap p none)

/-- The rvalue `p[i]`. -/
def readAt (s : Store T) (p : Nat) (i : Int) : Except Fault T :=
  match s.cell p with
  | none => .error .undefinedBehaviour
  | some arr =>
    if i < 0 then .error .undefinedBehaviour
    else
      match arr[i.toNat]? with
      | none => .error .undefinedBehaviour
      | some x => .ok x

/-- The assignment `p[i] = x`. -/
def writeAt (s : Store T) (p : Nat) (i : Int) (x : T) : Except Fault (Store T) :=
  match s.cell p with
  | none => .error .undefinedBehaviour
  | some arr =>
    if i < 0 ∨ (arr.length : Int) ≤ i then .error .undefinedBehaviour
    else .ok (s.setHeap p (some (arr.set i.toNat x)))

/-- The loop `for (k = k0; k < k0 + n; ++k) dst[k] = src[k]`, with `n` the number
of iterations still to run. -/
def copyElems (src dst : Nat) : Nat → Int → Store T → Except Fault (Store T)
  | 0, _, s => .ok s
  | n + 1, k, s =>
    match readAt s src k with
    | .error e => .error e
    | .ok x =>
      match writeAt s dst k x with
      | .error e => .error e
      | .ok s1 => copyElems src dst n (k + 1) s1

end Memory

section Members

variable {T : Type}

/-- The constructor `explicit Vector(int initSize = 0)`, run on the object `this`. -/
def construct (s : Store T) (this : Nat) (initSize : Int) : Except Fault (Store T) :=
  let theSize := initSize
  match checkInt (initSize + SPARE_CAPACITY) with
  | .error e => .error e
  | .ok theCapacity =>
    match newArray s theCapacity with
    | .error e => .error e
    | .ok (p, s1) => .ok (s1.setVec this ⟨theSize, theCapacity, p⟩)

/-- The copy constructor `Vector(const Vector& rhs)`, run on the object `this`. -/
def copyConstruct (s : Store T) (this rhs : Nat) : Except Fault (Store T) :=
  let theSize := (s.vec rhs).theSize
  let theCapacity := (s.vec rhs).theCapacity
  match newArray s theCapacity with
  | .error e => .error e
  | .ok (p, s1) =>
    let s2 := s1.setVec this ⟨theSize, theCapacity, p⟩
    copyElems (s2.vec rhs).objects (s2.vec this).objects (s2.vec this).theSize.toNat 0 s2

/-- The copy assignment `operator=(const Vector& rhs)`, run on the object `this`. -/
def assign (s : Store T) (this rhs : Nat) : Except Fault (Store T) :=
  if this ≠ rhs then
    match newArray s (s.vec rhs).theCapacity with
    | .error e => .error e
    | .ok (newArr, s1) =>
      match copyElems (s1.vec rhs).objects newArr (s1.vec rhs).theSize.toNat 0 s1 with
      | .error e => .error e
      | .ok s2 =>
        match deleteArray s2 (s2.vec this).objects with
        | .error e => .error e
        | .ok s3 =>
          let s4 := s3.setVec this { s3.vec this with objects := newArr }
          let s5 := s4.setVec this { s4.vec this with theSize := (s4.vec rhs).theSize }
          .ok (s5.setVec this { s5.vec this with theCapacity := (s5.vec rhs).theCapacity })
  else .ok s

/-- The member `void reserve(int newCapacity)`. -/
def reserve (s : Store T) (this : Nat) (newCapacity : Int) : Except Fault (Store T) :=
  if newCapacity ≤ (s.vec this).theCapacity then .ok s
  else
    let oldArray := (s.vec this).objects
    match newArray s newCapacity with
    | .error e => .error e
    | .ok (p, s1) =>
      let s2 := s1.setVec this { s1.vec this with objects := p }
      match copyElems oldArray (s2.vec this).objects (s2.vec this).theSize.toNat 0 s2 with
      | .error e => .error e
      | .ok s3 =>
        let s4 := s3.setVec this { s3.vec this with theCapacity := newCapacity }
        deleteArray s4 oldArray

/-- The member `void resize(int newSize)`. -/
def resize (s : Store T) (this : Nat) (newSize : Int) : Except Fault (Store T) :=
  match (if newSize > (s.vec this).theCapacity then
           match twicePlusOne newSize with
           | .error e => .error e
           | .ok newCapacity => reserve s this newCapacity
         else .ok s : Except Fault (Store T)) with
  | .error e => .error e
  | .ok s1 => .ok (s1.setVec this { s1.vec this with theSize := newSize })

/-- The member `T& operator[](int index)` used as an rvalue. -/
def index (s : Store T) (this : Nat) (i : Int) : Except Fault T :=
  readAt s (s.vec this).objects i

/-- The member `T& operator[](int index)` used as the target of an assignment. -/
def assignIndex (s : Store T) (this : Nat) (i : Int) (x : T) : Except Fault (Store T) :=
  writeAt s (s.vec this).objects i x

/-- The member `int size() const`. -/
def size (s : Store T) (this : Nat) : Int := (s.vec this).theSize

/-- The member `bool empty() const`. -/
def empty (s : Store T) (this : Nat) : Bool := size s this == 0

/-- The member `int capacity() const`. -/
def capacity (s : Store T) (this : Nat) : Int := (s.vec this).theCapacity

/-- What a parameter of type `const T&` refers to. -/
inductive Ref (T : Type) where
  /-- An object that lives outside every heap array: a local variable or a
  temporary, holding `x`. -/
  | value (x : T)
  /-- The slot `i` of the heap array at address `p`, as `v[i]` in
  `v.push_back(v[i])`. -/
  | element (p : Nat) (i : Int)

/-- Read the object a reference refers to. -/
def readRef (s : Store T) : Ref T → Except Fault T
  | .value x => .ok x
  | .element p i => readAt s p i

/-- The member `void push_back(const T& x)`: the statement
`if (theSize == theCapacity) reserve(2 * theCapacity + 1);` and then
`objects[theSize++] = x;`, which reads `x` after `reserve` has run. -/
def push_back (s : Store T) (this : Nat) (x : Ref T) : Except Fault (Store T) :=
  match (if (s.vec this).theSize = (s.vec this).theCapacity then
           match twicePlusOne (s.vec this).theCapacity with
           | .error e => .error e
           | .ok newCapacity => reserve s this newCapacity
         else .ok s : Except Fault (Store T)) with
  | .error e => .error e
  | .ok s1 =>
    match readRef s1 x with
    | .error e => .error e
    | .ok y =>
      match writeAt s1 (s1.vec this).objects (s1.vec this).theSize y with
      | .error e => .error e
      | .ok s2 =>
        match checkInt ((s2.vec this).theSize + 1) with
        | .error e => .error e
        | .ok n => .ok (s2.setVec this { s2.vec this with theSize := n })

/-- The member `void pop_back()`. -/
def pop_back (s : Store T) (this : Nat) : Store T :=
  if (s.vec this).theSize > 0
  then s.setVec this { s.vec this with theSize := (s.vec this).theSize - 1 }
  else s

/-- The member `const T& back() const`. -/
def back (s : Store T) (this : Nat) : Except Fault T :=
  match checkInt ((s.vec this).theSize - 1) with
  | .error e => .error e
  | .ok i => readAt s (s.vec this).objects i

/-- The loop `for (auto x : v)`: the values met from `begin()` up to `end()`,
where `n` counts the steps still to take and `k` is the offset of the iterator. -/
def walk (s : Store T) (p : Nat) : Nat → Int → Except Fault (List T)
  | 0, _ => .ok []
  | n + 1, k =>
    match readAt s p k with
    | .error e => .error e
    | .ok x =>
      match walk s p n (k + 1) with
      | .error e => .error e
      | .ok xs => .ok (x :: xs)

/-- The traversal `begin() .. end()`.  With a negative size the iterator starts
past `end()` and never meets it. -/
def traverse (s : Store T) (this : Nat) : Except Fault (List T) :=
  if (s.vec this).theSize < 0 then .error .undefinedBehaviour
  else walk s (s.vec this).objects (s.vec this).theSize.toNat 0

/-- A call of a mutating member function. -/
inductive Call (T : Type) where
  /-- The statement `v[i] = x`. -/
  | assignIndex (i : Int) (x : T)
  /-- The call `v.push_back(x)` with `x` an object outside every heap array. -/
  | push_back (x : T)
  /-- The call `v.pop_back()`. -/
  | pop_back
  /-- The call `v.resize(n)`. -/
  | resize (n : Int)
  /-- The call `v.reserve(n)`. -/
  | reserve (n : Int)

/-- Whether a call is `push_back` or `pop_back`. -/
def Call.atBack : Call T → Bool
  | .push_back _ => true
  | .pop_back => true
  | _ => false

/-- Run one call on the object `this`. -/
def call (s : Store T) (this : Nat) : Call T → Except Fault (Store T)
  | .assignIndex i x => assignIndex s this i x
  | .push_back x => push_back s this (.value x)
  | .pop_back => .ok (pop_back s this)
  | .resize n => resize s this n
  | .reserve n => reserve s this n

/-- Run a sequence of calls on the object `this`; the result lists the store
after each call. -/
def callAll (s : Store T) (this : Nat) : List (Call T) →
    Except Fault (List (Store T))
  | [] => .ok []
  | c :: cs =>
    match call s this c with
    | .error e => .error e
    | .ok s1 =>
      match callAll s1 this cs with
      | .error e => .error e
      | .ok trace => .ok (s1 :: trace)

/-- Whether a failure is an exception, which reaches the caller; undefined
behaviour is not. -/
def Fault.isException : Fault → Bool
  | .badArrayNewLength => true
  | .undefinedBehaviour => false

/-- The calls `v.push_back(x)` for the values `x` of `xs` in order, as in the
loop of `main`, where `x` is the loop variable. -/
def pushAll (s : Store T) (this : Nat) : List T → Except Fault (Store T)
  | [] => .ok s
  | x :: xs =>
    match push_back s this (.value x) with
    | .error e => .error e
    | .ok s1 => pushAll s1 this xs

/-- The store a call ends in, for a call that completes; the store `s` otherwise. -/
def storeOr (r : Except Fault (Store T)) (s : Store T) : Store T :=
  match r with
  | .ok s1 => s1
  | .error _ => s

/-- The loop of `copyElems`, returning with the store the number of element
assignments `dst[k] = src[k]` it has made. -/
def copyElemsCounted (src dst : Nat) : Nat → Int → Store T → Except Fault (Store T × Nat)
  | 0, _, s => .ok (s, 0)
  | n + 1, k, s =>
    match readAt s src k with
    | .error e => .error e
    | .ok x =>
      match writeAt s dst k x with
      | .error e => .error e
      | .ok s1 =>
        match copyElemsCounted src dst n (k + 1) s1 with
        | .error e => .error e
        | .ok (s2, c) => .ok (s2, c + 1)

/-- The member `reserve`, returning with the store the number of elements it
has copied from the old buffer to the new one. -/
def reserveCounted (s : Store T) (this : Nat) (newCapacity : Int) :
    Except Fault (Store T × Nat) :=
  if newCapacity ≤ (s.vec this).theCapacity then .ok (s, 0)
  else
    let oldArray := (s.vec this).objects
    match newArray s newCapacity with
    | .error e => .error e
    | .ok (p, s1) =>
      let s2 := s1.setVec this { s1.vec this with objects := p }
      match copyElemsCounted oldArray (s2.vec this).objects (s2.vec this).theSize.toNat 0 s2 with
      | .error e => .error e
      | .ok (s3, c) =>
        let s4 := s3.setVec this { s3.vec this with theCapacity := newCapacity }
        match deleteArray s4 oldArray with
        | .error e => .error e
        | .ok s5 => .ok (s5, c)

/-- The member `push_back`, returning with the store the number of elements its
call of `reserve` has copied. -/
def push_backCounted (s : Store T) (this : Nat) (x : Ref T) :
    Except Fault (Store T × Nat) :=
  match (if (s.vec this).theSize = (s.vec this).theCapacity then
           match twicePlusOne (s.vec this).theCapacity with
           | .error e => .error e
           | .ok newCapacity => reserveCounted s this newCapacity
         else .ok (s, 0) : Except Fault (Store T × Nat)) with
  | .error e => .error e
  | .ok (s1, c) =>
    match readRef s1 x with
    | .error e => .error e
    | .ok y =>
      match writeAt s1 (s1.vec this).objects (s1.vec this).theSize y with
      | .error e => .error e
      | .ok s2 =>
        match checkInt ((s2.vec this).theSize + 1) with
        | .error e => .error e
        | .ok n => .ok (s2.setVec this { s2.vec this with theSize := n }, c)

/-- The calls `v.push_back(x)` for the values `x` of `xs` in order, returning
with the store the total number of elements copied by `reserve`. -/
def pushAllCounted (s : Store T) (this : Nat) :
    List T → Except Fault (Store T × Nat)
  | [] => .ok (s, 0)
  | x :: xs =>
    match push_backCounted s this (.value x) with
    | .error e => .error e
    | .ok (s1, c) =>
      match pushAllCounted s1 this xs with
      | .error e => .error e
      | .ok (s2, d) => .ok (s2, c + d)

/-- The exceptions the statements of `operator=` can raise. -/
inductive Raised where
  /-- The expression `new T[n]` throws: no memory, a negative length, or a
  throwing default constructor. -/
  | allocation
  /-- The copy assignment of an element throws. -/
  | elementAssignment
deriving DecidableEq, Repr

/-- Which statements of a run throw: whether `new T[n]` does, and the index, if
any, of the element whose copy assignment does. -/
structure Faults where
  allocation : Bool
  elementAt : Option Int
deriving DecidableEq, Repr

/-- How a run in which statements may throw ends: normally, with an exception
leaving the function in the given store, or in undefined behaviour. -/
inductive Outcome (T : Type) where
  | done (s : Store T)
  | threw (e : Raised) (s : Store T)
  | undefined

/-- The loop `for (k = k0; k < k0 + n; ++k) dst[k] = src[k]` when the assignment
of the element at index `failAt` throws. -/
def copyElemsOrThrow (src dst : Nat) (failAt : Option Int) :
    Nat → Int → Store T → Outcome T
  | 0, _, s => .done s
  | n + 1, k, s =>
    match readAt s src k with
    | .error _ => .undefined
    | .ok x =>
      if failAt = some k then .threw .elementAssignment s
      else
        match writeAt s dst k x with
        | .error _ => .undefined
        | .ok s1 => copyElemsOrThrow src dst failAt n (k + 1) s1

/-- The copy assignment `operator=(const Vector& rhs)` in a run where the
statements named by `f` throw. -/
def assignOrThrow (f : Faults) (s : Store T) (this rhs : Nat) : Outcome T :=
  if this ≠ rhs then
    if f.allocation then .threw .allocation s
    else
      match newArray s (s.vec rhs).theCapacity with
      | .error _ => .threw .allocation s
      | .ok (newArr, s1) =>
        match copyElemsOrThrow (s1.vec rhs).objects newArr f.elementAt
            (s1.vec rhs).theSize.toNat 0 s1 with
        | .undefined => .undefined
        | .threw e s2 => .threw e s2
        | .done s2 =>
          match deleteArray s2 (s2.vec this).objects with
          | .error _ => .undefined
          | .ok s3 =>
            let s4 := s3.setVec this { s3.vec this with objects := newArr }
            let s5 := s4.setVec this { s4.vec this with theSize := (s4.vec rhs).theSize }
            .done (s5.setVec this { s5.vec this with theCapacity := (s5.vec rhs).theCapacity })
  else .done s

end Members

section Predicates

variable {T : Type}

/-- The buffer of the object `a` is the live array `arr`, which has `theCapacity`
slots: the representation invariant of a constructed `Vector`. -/
def Owns (s : Store T) (a : Nat) (arr : List T) : Prop :=
  s.cell (s.vec a).objects = some arr ∧ (arr.length : Int) = (s.vec a).theCapacity

/-- What a member function run on `a` in `s` leaves alone when it ends in `s1`:
the other objects and the arrays other than the buffer of `a`.  The buffer of
`a` stays where it is or moves to an address not handed out before. -/
def Frame (s s1 : Store T) (a : Nat) : Prop :=
  (∀ b, b ≠ a → s1.vec b = s.vec b) ∧
  (∀ q, q ≠ (s.vec a).objects → q < s.heap.length → s1.cell q = s.cell q) ∧
  s.heap.length ≤ s1.heap.length ∧
  ((s1.vec a).objects = (s.vec a).objects ∨ s.heap.length ≤ (s1.vec a).objects)

/-- The object `a` is a constructed `Vector` whose elements, by index, are the
values of `l`, and whose size does not exceed its capacity. -/
def Holds (s : Store T) (a : Nat) (l : List T) : Prop :=
  ∃ arr : List T, Owns s a arr ∧ (s.vec a).theSize = (l.length : Int) ∧
    (s.vec a).theSize ≤ (s.vec a).theCapacity ∧ ∀ i : Nat, i < l.length → arr[i]? = l[i]?

end Predicates

/-- A store with no array allocated yet; the data members of every object hold
their default member initialisers, with address 0 standing for `nullptr`, and
the memory holds `default` (zero for `int`) everywhere. -/
def emptyStore (T : Type) [Inhabited T] : Store T :=
  { vec := fun _ => ⟨0, 0, 0⟩, heap := [none], uninit := fun _ _ => default }

/-- A store with no array allocated yet and 5 left behind in every slot of the
memory. -/
def staleStore : Store Int :=
  { vec := fun _ => ⟨0, 0, 0⟩, heap := [none], uninit := fun _ _ => 5 }

/-- The store of `main` after the declaration `Vector<int> v;`, with `v` the
object 0. -/
def mainStore : Store Int :=
  storeOr (construct (emptyStore Int) 0 0) (emptyStore Int)

/-- The store after the declaration `Vector<int> v(-1);`, with `v` the object 0. -/
def negativeStore : Store Int :=
  storeOr (construct (emptyStore Int) 0 (-1)) (emptyStore Int)

/-- The store after `v.push_back(1); v.push_back(2); v.push_back(3);` on the
`Vector` of `main`. -/
def filledStore : Store Int :=
  storeOr (pushAll mainStore 0 [1, 2, 3]) mainStore

/-- The store after `Vector<int> c(v);` in `filledStore`, with `c` the object 1. -/
def copiedStore : Store Int :=
  storeOr (copyConstruct filledStore 1 0) filledStore

/-- The stores a sequence of calls goes through, for a sequence that completes. -/
def traceOr {T : Type} (r : Except Fault (List (Store T))) : List (Store T) :=
  match r with
  | .ok trace => trace
  | .error _ => []

/-- The store after `v.push_back(5); v.pop_back();` on the `Vector` of `main`. -/
def poppedStore : Store Int :=
  pop_back (storeOr (push_back mainStore 0 (.value 5)) mainStore) 0

/-- The store after `c.push_back(4);` in `copiedStore`: `v`, the object 0, holds
1, 2, 3 and `c`, the object 1, holds 1, 2, 3, 4. -/
def twoStore : Store Int :=
  storeOr (push_back copiedStore 1 (.value 4)) copiedStore

/-- The store after sixteen calls `v.push_back(1)` on the `Vector` of `main`:
the buffer, of capacity 16, is full. -/
def fullStore : Store Int :=
  storeOr (pushAll mainStore 0 (List.replicate 16 1)) mainStore

/-- The store after the declaration `Vector<int> v(1073741808);`, with `v` the
object 0. -/
def hugeBase : Store Int :=
  storeOr (construct (emptyStore Int) 0 1073741808) (emptyStore Int)

/-- The store after `v.resize(1073741824);` in `hugeBase`: the size and the
capacity of `v` are both `2^30`. -/
def hugeStore : Store Int :=
  storeOr (resize hugeBase 0 1073741824) hugeBase

/-! ## The heap primitives -/

section MemoryLemmas

variable {T : Type}

@[simp] theorem Store.setVec_vec (s : Store T) (a : Nat) (v : Vector) (b : Nat) :
    (s.setVec a v).vec b = if b = a then v else s.vec b := rfl

@[simp] theorem Store.setVec_heap (s : Store T) (a : Nat) (v : Vector) :
    (s.setVec a v).heap = s.heap := rfl

@[simp] theorem Store.setVec_cell (s : Store T) (a : Nat) (v : Vector) (q : Nat) :
    (s.setVec a v).cell q = s.cell q := rfl

@[simp] theorem Store.setHeap_vec (s : Store T) (p : Nat) (c : Option (List T)) :
    (s.setHeap p c).vec = s.vec := rfl

@[simp] theorem Store.setHeap_length (s : Store T) (p : Nat) (c : Option (List T)) :
    (s.setHeap p c).heap.length = s.heap.length := by
  simp [Store.setHeap]

theorem Store.cell_lt (s : Store T) (p : Nat) (arr : List T) (h : s.cell p = some arr) :
    p < s.heap.length := by
  by_contra hlt
  have hle : s.heap.length ≤ p := Nat.le_of_not_lt hlt
  have hnone : s.heap[p]? = none := List.getElem?_eq_none hle
  simp [Store.cell, hnone] at h

theorem Store.cell_setHeap_same (s : Store T) (p : Nat) (c : Option (List T))
    (hp : p < s.heap.length) : (s.setHeap p c).cell p = c := by
  simp [Store.cell, Store.setHeap, List.getElem?_set_self hp]

theorem Store.cell_setHeap_ne (s : Store T) (p q : Nat) (c : Option (List T)) (h : q ≠ p) :
    (s.setHeap p c).cell q = s.cell q := by
  have h1 : p ≠ q := fun e => h e.symm
  simp [Store.cell, Store.setHeap, List.getElem?_set_ne h1]

/-- Outcome of `new T[n]` for a length that is not negative. -/
theorem newArray_spec (s : Store T) (n : Int) (hn : 0 ≤ n) :
    ∃ s1 : Store T, newArray s n = .ok (s.heap.length, s1) ∧ s1.vec = s.vec ∧
      s1.heap.length = s.heap.length + 1 ∧
      s1.cell s.heap.length = some ((List.range n.toNat).map (s.uninit s.heap.length)) ∧
      (∀ q, q ≠ s.heap.length → s1.cell q = s.cell q) ∧ s1.uninit = s.uninit := by
  have hn1 : ¬ n < 0 := by omega
  refine ⟨{ s with heap := s.heap ++ [some ((List.range n.toNat).map (s.uninit s.heap.length))] },
    by simp only [newArray, hn1, if_false], rfl, by simp, ?_, ?_, rfl⟩
  · simp [Store.cell]
  · intro q hq
    by_cases hlt : q < s.heap.length
    · simp [Store.cell, List.getElem?_append_left hlt]
    · have h1 : s.heap[q]? = none := List.getElem?_eq_none (by omega)
      have h2 : (s.heap ++ [some ((List.range n.toNat).map (s.uninit s.heap.length))])[q]?
          = none := List.getElem?_eq_none (by simp; omega)
      simp [Store.cell, h1, h2]

/-- The slots of a fresh array, read by index. -/
theorem fresh_getElem? (f : Nat → T) (n i : Nat) (hi : i < n) :
    ((List.range n).map f)[i]? = some (f i) := by
  simp [List.getElem?_map, List.getElem?_range hi]

theorem readAt_live (s : Store T) (p : Nat) (arr : List T) (i : Nat) (x : T)
    (hp : s.cell p = some arr) (hx : arr[i]? = some x) : readAt s p (i : Int) = .ok x := by
  simp [readAt, hp, hx]

theorem writeAt_live (s : Store T) (p : Nat) (arr : List T) (i : Nat) (x : T)
    (hp : s.cell p = some arr) (hi : i < arr.length) :
    writeAt s p (i : Int) x = .ok (s.setHeap p (some (arr.set i x))) := by
  have h1 : ¬ ((arr.length : Int) ≤ (i : Int)) := by omega
  simp [writeAt, hp, h1]

theorem deleteArray_live (s : Store T) (p : Nat) (arr : List T) (hp : s.cell p = some arr) :
    deleteArray s p = .ok (s.setHeap p none) := by
  simp [deleteArray, hp]

/-- Effect of the copy loop on a destination distinct from the source. -/
theorem copyElems_spec (src dst : Nat) (hne : src ≠ dst) (A : List T) :
    ∀ (n k : Nat) (s : Store T) (B : List T), s.cell src = some A → s.cell dst = some B →
      k + n ≤ A.length → k + n ≤ B.length →
      ∃ (s1 : Store T) (B1 : List T), copyElems src dst n (k : Int) s = .ok s1 ∧
        s1.vec = s.vec ∧ s1.heap.length = s.heap.length ∧
        s1.cell dst = some B1 ∧ (∀ q, q ≠ dst → s1.cell q = s.cell q) ∧
        B1.length = B.length ∧
        ∀ i : Nat, B1[i]? = if k ≤ i ∧ i < k + n then A[i]? else B[i]? := by
  intro n
  induction n with
  | zero =>
    intro k s B _ hB _ _
    refine ⟨s, B, by simp [copyElems], rfl, rfl, hB, fun _ _ => rfl, rfl, ?_⟩
    intro i
    rw [if_neg (by omega)]
  | succ n ih =>
    intro k s B hA hB hkA hkB
    have hkA1 : k < A.length := by omega
    have hkB1 : k < B.length := by omega
    have hx : A[k]? = some A[k] := List.getElem?_eq_getElem hkA1
    have hr := readAt_live s src A k A[k] hA hx
    have hw := writeAt_live s dst B k A[k] hB hkB1
    have hdlt := s.cell_lt dst B hB
    have hA1 : (s.setHeap dst (some (B.set k A[k]))).cell src = some A := by
      rw [Store.cell_setHeap_ne _ _ _ _ hne]; exact hA
    have hB1 : (s.setHeap dst (some (B.set k A[k]))).cell dst = some (B.set k A[k]) :=
      Store.cell_setHeap_same _ _ _ hdlt
    obtain ⟨s1, B1, hc, hvec, hlen1, hcell, hother, hlen, hget⟩ :=
      ih (k + 1) (s.setHeap dst (some (B.set k A[k])))
        (B.set k A[k]) hA1 hB1 (by omega) (by simp; omega)
    refine ⟨s1, B1, ?_, ?_, ?_, hcell, ?_, ?_, ?_⟩
    · have hcast : ((k : Int) + 1) = ((k + 1 : Nat) : Int) := by push_cast; ring
      simp only [copyElems, hr, hw, hcast, hc]
    · simpa using hvec
    · simpa using hlen1
    · intro q hq
      rw [hother q hq, Store.cell_setHeap_ne _ _ _ _ hq]
    · simpa using hlen
    · intro i
      rw [hget i]
      by_cases h1 : k + 1 ≤ i ∧ i < k + 1 + n
      · have h2 : k ≤ i ∧ i < k + (n + 1) := by omega
        simp [h1, h2]
      · by_cases h3 : i = k
        · subst h3
          have h2 : i ≤ i ∧ i < i + (n + 1) := by omega
          simp [h1, h2, List.getElem?_set_self, hkB1, hx]
        · have h2 : ¬ (k ≤ i ∧ i < k + (n + 1)) := by omega
          have h4 : k ≠ i := fun h => h3 h.symm
          simp [h1, h2, List.getElem?_set_ne h4]

end MemoryLemmas

/-! ## Specifications of the member functions -/

section MemberLemmas

variable {T : Type}

theorem Frame.refl (s : Store T) (a : Nat) : Frame s s a :=
  ⟨fun _ _ => rfl, fun _ _ _ => rfl, le_refl _, Or.inl rfl⟩

theorem Frame.trans {s s1 s2 : Store T} {a : Nat}
    (h1 : Frame s s1 a) (h2 : Frame s1 s2 a) : Frame s s2 a := by
  obtain ⟨hv1, hc1, hl1, hp1⟩ := h1
  obtain ⟨hv2, hc2, hl2, hp2⟩ := h2
  refine ⟨fun b hb => by rw [hv2 b hb, hv1 b hb], ?_, le_trans hl1 hl2, ?_⟩
  · intro q hq hlt
    have hq1 : q ≠ (s1.vec a).objects := by
      rcases hp1 with h | h
      · rw [h]; exact hq
      · omega
    rw [hc2 q hq1 (by omega), hc1 q hq hlt]
  · rcases hp1 with h | h
    · rcases hp2 with h3 | h3
      · left; rw [h3, h]
      · right; omega
    · rcases hp2 with h3 | h3
      · right; rw [h3]; exact h
      · right; omega

/-- Reads through `operator[]` of a constructed `Vector`. -/
theorem index_of_owns (s : Store T) (a : Nat) (arr : List T) (i : Nat) (x : T)
    (hown : Owns s a arr) (hx : arr[i]? = some x) : index s a (i : Int) = .ok x :=
  readAt_live s _ arr i x hown.1 hx

theorem checkInt_ok (n : Int) (h1 : INT_MIN ≤ n) (h2 : n ≤ INT_MAX) : checkInt n = .ok n := by
  simp [checkInt, h1, h2]

theorem checkInt_overflow (n : Int) (h : INT_MAX < n) :
    checkInt n = .error .undefinedBehaviour := by
  have h1 : ¬ n ≤ INT_MAX := by omega
  simp [checkInt, h1]

theorem checkInt_eq_ok {n m : Int} (h : checkInt n = .ok m) :
    m = n ∧ INT_MIN ≤ n ∧ n ≤ INT_MAX := by
  unfold checkInt at h
  by_cases hr : INT_MIN ≤ n ∧ n ≤ INT_MAX
  · simp only [hr, and_self, if_true, Except.ok.injEq] at h
    exact ⟨h.symm, hr.1, hr.2⟩
  · simp [hr] at h

theorem twicePlusOne_ok (c : Int) (h0 : 0 ≤ c) (h : 2 * c + 1 ≤ INT_MAX) :
    twicePlusOne c = .ok (2 * c + 1) := by
  have hmin : INT_MIN ≤ 0 := by decide
  unfold twicePlusOne
  rw [checkInt_ok (2 * c) (by omega) (by omega)]
  exact checkInt_ok (2 * c + 1) (by omega) h

theorem twicePlusOne_overflow (c : Int) (h0 : 0 ≤ c) (h : INT_MAX < 2 * c + 1) :
    twicePlusOne c = .error .undefinedBehaviour := by
  have hmin : INT_MIN ≤ 0 := by decide
  unfold twicePlusOne
  by_cases h2 : 2 * c ≤ INT_MAX
  · rw [checkInt_ok (2 * c) (by omega) h2]
    exact checkInt_overflow _ h
  · rw [checkInt_overflow (2 * c) (by omega)]

theorem twicePlusOne_eq_ok {c n : Int} (h : twicePlusOne c = .ok n) :
    n = 2 * c + 1 ∧ 2 * c + 1 ≤ INT_MAX := by
  unfold twicePlusOne at h
  cases hc : checkInt (2 * c) with
  | error e => simp [hc] at h
  | ok d =>
    simp only [hc] at h
    obtain ⟨hd, _, _⟩ := checkInt_eq_ok hc
    obtain ⟨hn, _, hmax⟩ := checkInt_eq_ok h
    subst hd
    exact ⟨hn, hmax⟩

/-- Specification of `reserve`. -/
theorem reserve_spec (s : Store T) (a : Nat) (n : Int) (arr : List T)
    (hown : Owns s a arr) (hsz : (s.vec a).theSize ≤ (s.vec a).theCapacity) :
    ∃ (s1 : Store T) (arr1 : List T), reserve s a n = .ok s1 ∧ Owns s1 a arr1 ∧
      (s1.vec a).theSize = (s.vec a).theSize ∧
      (s1.vec a).theCapacity = max (s.vec a).theCapacity n ∧
      (∀ i : Nat, (i : Int) < (s.vec a).theSize → arr1[i]? = arr[i]?) ∧
      (n ≤ (s.vec a).theCapacity → s1 = s ∧ arr1 = arr) ∧
      ((s.vec a).theCapacity < n → ∀ i : Nat, (s.vec a).theSize ≤ (i : Int) → (i : Int) < n →
        arr1[i]? = some (s.uninit s.heap.length i)) ∧
      ((s.vec a).theCapacity < n → s1.cell (s.vec a).objects = none) ∧
      Frame s s1 a := by
  obtain ⟨hcell, hlen⟩ := hown
  by_cases hle : n ≤ (s.vec a).theCapacity
  · refine ⟨s, arr, by simp [reserve, hle], ⟨hcell, hlen⟩, rfl, by simp [hle],
      fun _ _ => rfl, fun _ => ⟨rfl, rfl⟩, fun h => by omega, fun h => by omega, Frame.refl s a⟩
  · have hn : 0 ≤ n := by omega
    have hold := s.cell_lt _ arr hcell
    have hne : (s.vec a).objects ≠ s.heap.length := by omega
    obtain ⟨s1, hnew, hvec1, hlen1, hfresh1, hother1, _⟩ := newArray_spec s n hn
    have hA : (s1.setVec a { s1.vec a with objects := s.heap.length }).cell (s.vec a).objects
        = some arr := by
      rw [Store.setVec_cell, hother1 _ hne]; exact hcell
    have hB : (s1.setVec a { s1.vec a with objects := s.heap.length }).cell s.heap.length
        = some ((List.range n.toNat).map (s.uninit s.heap.length)) := by
      rw [Store.setVec_cell]; exact hfresh1
    obtain ⟨s3, B1, hcopy, hvec3, hlen3, hcell3, hother3, hlenB, hget⟩ :=
      copyElems_spec (s.vec a).objects s.heap.length hne arr (s.vec a).theSize.toNat 0
        (s1.setVec a { s1.vec a with objects := s.heap.length })
        ((List.range n.toNat).map (s.uninit s.heap.length)) hA hB (by omega)
        (by rw [List.length_map, List.length_range]; omega)
    have hdel : (s3.setVec a { s3.vec a with theCapacity := n }).cell (s.vec a).objects
        = some arr := by
      rw [Store.setVec_cell, hother3 _ hne]; exact hA
    have hd := deleteArray_live _ _ _ hdel
    have hlt3 : (s.vec a).objects < s3.heap.length := by
      rw [hlen3]; simp only [Store.setVec_heap]; omega
    refine ⟨(s3.setVec a { s3.vec a with theCapacity := n }).setHeap (s.vec a).objects none,
      B1, ?_, ?_, ?_, ?_, ?_, ?_, ?_, ?_, ?_⟩
    · simp only [reserve, hle, if_false, hnew, Store.setVec_vec, if_true, hvec1]
      simp only [hvec1, Nat.cast_zero] at hcopy
      rw [hcopy]
      simp only [hd]
    · constructor
      · simp only [Store.setHeap_vec, Store.setVec_vec, if_true, hvec3]
        rw [Store.cell_setHeap_ne _ _ _ _ hne.symm]
        simpa using hcell3
      · simp only [Store.setHeap_vec, Store.setVec_vec, if_true]
        rw [hlenB, List.length_map, List.length_range]; omega
    · simp [hvec3, hvec1]
    · simp only [Store.setHeap_vec, Store.setVec_vec, if_true]
      rw [max_eq_right (by omega)]
    · intro i hi
      rw [hget i, if_pos (by omega)]
    · intro h; omega
    · intro _ i hi1 hi2
      rw [hget i, if_neg (by omega)]
      exact fresh_getElem? _ _ _ (by omega)
    · intro _
      exact Store.cell_setHeap_same _ _ _ (by simpa using hlt3)
    · refine ⟨?_, ?_, ?_, ?_⟩
      · intro b hb
        simp [hb, hvec3, hvec1]
      · intro q hq hlt
        have hq1 : q ≠ s.heap.length := by omega
        rw [Store.cell_setHeap_ne _ _ _ _ hq, Store.setVec_cell, hother3 q hq1,
          Store.setVec_cell, hother1 q hq1]
      · simp [hlen3, hlen1]
      · right
        simp [hvec3]

/-- Specification of `resize` for an argument within the capacity or small
enough for `newSize * 2 + 1` to be an `int`. -/
theorem resize_spec (s : Store T) (a : Nat) (n : Int) (arr : List T)
    (hown : Owns s a arr) (hsz : (s.vec a).theSize ≤ (s.vec a).theCapacity)
    (hroom : n ≤ (s.vec a).theCapacity ∨ 2 * n + 1 ≤ INT_MAX) :
    ∃ (s1 : Store T) (arr1 : List T), resize s a n = .ok s1 ∧ Owns s1 a arr1 ∧
      (s1.vec a).theSize = n ∧
      (s1.vec a).theCapacity = (if n > (s.vec a).theCapacity then 2 * n + 1
        else (s.vec a).theCapacity) ∧
      (∀ i : Nat, (i : Int) < (s.vec a).theSize → arr1[i]? = arr[i]?) ∧
      (n ≤ (s.vec a).theCapacity → arr1 = arr) ∧
      ((s.vec a).theCapacity < n → ∀ i : Nat, (s.vec a).theSize ≤ (i : Int) →
        (i : Int) < 2 * n + 1 → arr1[i]? = some (s.uninit s.heap.length i)) ∧
      Frame s s1 a := by
  have hcap : 0 ≤ (s.vec a).theCapacity := by rw [← hown.2]; omega
  by_cases hgt : n > (s.vec a).theCapacity
  · have hmax : 2 * n + 1 ≤ INT_MAX := by
      rcases hroom with h | h
      · omega
      · exact h
    have htwice := twicePlusOne_ok n (by omega) hmax
    obtain ⟨s1, arr1, hres, hown1, hsize1, hcap1, hkeep, _, hdef, _, hframe⟩ :=
      reserve_spec s a (2 * n + 1) arr hown hsz
    refine ⟨s1.setVec a { s1.vec a with theSize := n }, arr1, ?_, ?_, ?_, ?_, hkeep, ?_, ?_, ?_⟩
    · simp only [resize, hgt, if_true, htwice, hres]
    · exact ⟨by simpa using hown1.1, by simpa using hown1.2⟩
    · simp
    · simp only [Store.setVec_vec, if_true, hcap1, hgt]
      rw [max_eq_right (by omega)]
    · intro h; omega
    · intro h i hi1 hi2
      exact hdef (by omega) i hi1 (by omega)
    · obtain ⟨hv, hc, hl, hp⟩ := hframe
      refine ⟨fun b hb => by simp [hb, hv b hb], fun q hq hlt => ?_, by simpa using hl,
        by simpa using hp⟩
      rw [Store.setVec_cell]; exact hc q hq hlt
  · refine ⟨s.setVec a { s.vec a with theSize := n }, arr, ?_, ?_, ?_, ?_, fun _ _ => rfl,
      fun _ => rfl, ?_, ?_⟩
    · simp only [resize, hgt, if_false]
    · exact ⟨by simpa using hown.1, by simpa using hown.2⟩
    · simp
    · simp [hgt]
    · intro h; omega
    · exact ⟨fun b hb => by simp [hb], fun q _ _ => rfl, le_refl _, Or.inl (by simp)⟩

/-- Beyond the capacity and with `newSize * 2 + 1` out of range, `resize` is
undefined. -/
theorem resize_overflow (s : Store T) (a : Nat) (n : Int)
    (hcap : 0 ≤ (s.vec a).theCapacity) (hgt : n > (s.vec a).theCapacity)
    (hbig : INT_MAX < 2 * n + 1) : resize s a n = .error .undefinedBehaviour := by
  simp only [resize, hgt, if_true, twicePlusOne_overflow n (by omega) hbig]

/-- Specification of the first statement of `push_back`, which grows a full
buffer. -/
theorem push_back_grow_spec (s : Store T) (a : Nat) (arr : List T)
    (hown : Owns s a arr) (hsz : (s.vec a).theSize ≤ (s.vec a).theCapacity)
    (hroom : (s.vec a).theSize < (s.vec a).theCapacity ∨
      2 * (s.vec a).theCapacity + 1 ≤ INT_MAX) :
    ∃ (s1 : Store T) (arr1 : List T),
      (if (s.vec a).theSize = (s.vec a).theCapacity then
          match twicePlusOne (s.vec a).theCapacity with
          | .error e => .error e
          | .ok newCapacity => reserve s a newCapacity
        else .ok s : Except Fault (Store T)) = .ok s1 ∧
      Owns s1 a arr1 ∧ (s1.vec a).theSize = (s.vec a).theSize ∧
      (s1.vec a).theCapacity = (if (s.vec a).theSize = (s.vec a).theCapacity
        then 2 * (s.vec a).theCapacity + 1 else (s.vec a).theCapacity) ∧
      (∀ i : Nat, (i : Int) < (s.vec a).theSize → arr1[i]? = arr[i]?) ∧
      ((s.vec a).theSize < (s.vec a).theCapacity → s1 = s) ∧
      ((s.vec a).theSize = (s.vec a).theCapacity → s1.cell (s.vec a).objects = none) ∧
      Frame s s1 a := by
  have hcap : 0 ≤ (s.vec a).theCapacity := by rw [← hown.2]; omega
  by_cases heq : (s.vec a).theSize = (s.vec a).theCapacity
  · have hmax : 2 * (s.vec a).theCapacity + 1 ≤ INT_MAX := by
      rcases hroom with h | h
      · omega
      · exact h
    have htwice := twicePlusOne_ok (s.vec a).theCapacity hcap hmax
    obtain ⟨s1, arr1, hres, hown1, hsize1, hcap1, hkeep, _, _, hfree, hframe⟩ :=
      reserve_spec s a (2 * (s.vec a).theCapacity + 1) arr hown hsz
    refine ⟨s1, arr1, by simp only [heq, if_true, htwice, hres], hown1, hsize1, ?_, hkeep,
      fun h => by omega, fun _ => hfree (by omega), hframe⟩
    rw [hcap1, if_pos heq, max_eq_right (by omega)]
  · exact ⟨s, arr, by simp only [heq, if_false], hown, rfl, by simp only [heq, if_false],
      fun _ _ => rfl, fun _ => rfl, fun h => absurd h heq, Frame.refl s a⟩

/-- On a `Vector` with a negative size `push_back` writes before the start of
its buffer. -/
theorem push_back_negative (s : Store T) (a : Nat) (x : T) (arr : List T)
    (hown : Owns s a arr) (hneg : (s.vec a).theSize < 0) :
    push_back s a (.value x) = .error .undefinedBehaviour := by
  have hcap : 0 ≤ (s.vec a).theCapacity := by rw [← hown.2]; omega
  have hne : ¬ (s.vec a).theSize = (s.vec a).theCapacity := by omega
  simp [push_back, hne, readRef, writeAt, hown.1, hneg]

/-- On a full `Vector` whose capacity is too large for `2 * theCapacity + 1` to
be an `int`, `push_back` is undefined. -/
theorem push_back_overflow (s : Store T) (a : Nat) (x : Ref T)
    (hcap : 0 ≤ (s.vec a).theCapacity) (heq : (s.vec a).theSize = (s.vec a).theCapacity)
    (hbig : INT_MAX < 2 * (s.vec a).theCapacity + 1) :
    push_back s a x = .error .undefinedBehaviour := by
  simp only [push_back, heq, if_true, twicePlusOne_overflow _ hcap hbig]

/-- On a full `Vector`, `push_back` of a reference into the buffer reads the
buffer after `reserve` has released it. -/
theorem push_back_dangling (s : Store T) (a : Nat) (i : Int) (arr : List T)
    (hown : Owns s a arr) (heq : (s.vec a).theSize = (s.vec a).theCapacity) :
    push_back s a (.element (s.vec a).objects i) = .error .undefinedBehaviour := by
  have hcap : 0 ≤ (s.vec a).theCapacity := by rw [← hown.2]; omega
  by_cases hbig : INT_MAX < 2 * (s.vec a).theCapacity + 1
  · exact push_back_overflow s a _ hcap heq hbig
  · obtain ⟨s1, arr1, hres, _, _, _, _, _, hfree, _⟩ :=
      push_back_grow_spec s a arr hown (by omega) (Or.inr (by omega))
    simp only [push_back, hres, readRef, readAt, hfree heq]

/-- The statements of `push_back` up to the increment of `theSize`, on a
`Vector` whose size is not negative, for a reference to an object outside the
heap arrays or, when the buffer is not full, any reference that can be read. -/
theorem push_back_steps (s : Store T) (a : Nat) (x : Ref T) (y : T) (arr : List T)
    (hown : Owns s a arr) (h0 : 0 ≤ (s.vec a).theSize)
    (hsz : (s.vec a).theSize ≤ (s.vec a).theCapacity)
    (hroom : (s.vec a).theSize < (s.vec a).theCapacity ∨
      2 * (s.vec a).theCapacity + 1 ≤ INT_MAX)
    (hx : x = .value y ∨ ((s.vec a).theSize < (s.vec a).theCapacity ∧ readRef s x = .ok y)) :
    ∃ (s1 : Store T) (arr1 : List T), Owns s1 a arr1 ∧
      (s1.vec a).theSize = (s.vec a).theSize ∧
      (s1.vec a).theCapacity = (if (s.vec a).theSize = (s.vec a).theCapacity
        then 2 * (s.vec a).theCapacity + 1 else (s.vec a).theCapacity) ∧
      (∀ i : Nat, (i : Int) < (s.vec a).theSize → arr1[i]? = arr[i]?) ∧
      Frame s s1 a ∧ (s.vec a).theSize.toNat < arr1.length ∧
      push_back s a x =
        match checkInt ((s.vec a).theSize + 1) with
        | .error e => .error e
        | .ok n => .ok ((s1.setHeap (s1.vec a).objects
            (some (arr1.set (s.vec a).theSize.toNat y))).setVec a
              { s1.vec a with theSize := n }) := by
  obtain ⟨s1, arr1, hres, hown1, hsize1, hcap1, hkeep, hsame, _, hframe⟩ :=
    push_back_grow_spec s a arr hown hsz hroom
  have hread : readRef s1 x = .ok y := by
    rcases hx with h | ⟨hlt, h⟩
    · rw [h]; rfl
    · rw [hsame hlt]; exact h
  have hlt : (s.vec a).theSize.toNat < arr1.length := by
    have h2 := hown1.2
    rw [hcap1] at h2
    split_ifs at h2 <;> omega
  have hcast : (((s.vec a).theSize.toNat : Nat) : Int) = (s.vec a).theSize :=
    Int.toNat_of_nonneg h0
  have hw := writeAt_live s1 (s1.vec a).objects arr1 (s.vec a).theSize.toNat y hown1.1 hlt
  rw [hcast] at hw
  refine ⟨s1, arr1, hown1, hsize1, hcap1, hkeep, hframe, hlt, ?_⟩
  simp only [push_back, hres, hread, hw, Store.setHeap_vec, hsize1]

/-- Specification of `push_back` on a `Vector` whose size is not negative and
whose incremented size is an `int`. -/
theorem push_back_spec_of_increment (s : Store T) (a : Nat) (x : Ref T) (y : T) (arr : List T)
    (hown : Owns s a arr) (h0 : 0 ≤ (s.vec a).theSize)
    (hsz : (s.vec a).theSize ≤ (s.vec a).theCapacity)
    (hroom : (s.vec a).theSize < (s.vec a).theCapacity ∨
      2 * (s.vec a).theCapacity + 1 ≤ INT_MAX)
    (hinc : (s.vec a).theSize + 1 ≤ INT_MAX)
    (hx : x = .value y ∨ ((s.vec a).theSize < (s.vec a).theCapacity ∧ readRef s x = .ok y)) :
    ∃ (s1 : Store T) (arr1 : List T), push_back s a x = .ok s1 ∧ Owns s1 a arr1 ∧
      (s1.vec a).theSize = (s.vec a).theSize + 1 ∧
      (s1.vec a).theCapacity = (if (s.vec a).theSize = (s.vec a).theCapacity
        then 2 * (s.vec a).theCapacity + 1 else (s.vec a).theCapacity) ∧
      (∀ i : Nat, (i : Int) < (s.vec a).theSize → arr1[i]? = arr[i]?) ∧
      arr1[(s.vec a).theSize.toNat]? = some y ∧
      Frame s s1 a := by
  obtain ⟨s1, arr1, hown1, hsize1, hcap1, hkeep, hframe, hlt, hpush⟩ :=
    push_back_steps s a x y arr hown h0 hsz hroom hx
  have hplt := s1.cell_lt _ arr1 hown1.1
  have hmin : INT_MIN ≤ 0 := by decide
  rw [checkInt_ok _ (by omega) hinc] at hpush
  refine ⟨_, arr1.set (s.vec a).theSize.toNat y, hpush, ?_, ?_, ?_, ?_, ?_, ?_⟩
  · constructor
    · simp only [Store.setVec_vec, if_true, Store.setVec_cell]
      exact Store.cell_setHeap_same _ _ _ hplt
    · simpa using hown1.2
  · simp
  · simpa using hcap1
  · intro i hi
    rw [List.getElem?_set_ne (by omega)]
    exact hkeep i hi
  · rw [List.getElem?_set_self hlt]
  · obtain ⟨hv, hc, hl, hp⟩ := hframe
    refine ⟨fun b hb => by simp [hb, hv b hb], fun q hq hlt1 => ?_, by simpa using hl,
      by simpa using hp⟩
    have hq1 : q ≠ (s1.vec a).objects := by
      rcases hp with h | h
      · rw [h]; exact hq
      · omega
    rw [Store.setVec_cell, Store.cell_setHeap_ne _ _ _ _ hq1]
    exact hc q hq hlt1

/-- Specification of `push_back` on a `Vector` whose size is not negative and
whose capacity is an `int`. -/
theorem push_back_spec (s : Store T) (a : Nat) (x : Ref T) (y : T) (arr : List T)
    (hown : Owns s a arr) (h0 : 0 ≤ (s.vec a).theSize)
    (hsz : (s.vec a).theSize ≤ (s.vec a).theCapacity)
    (hroom : (s.vec a).theSize < (s.vec a).theCapacity ∨
      2 * (s.vec a).theCapacity + 1 ≤ INT_MAX)
    (hint : (s.vec a).theCapacity ≤ INT_MAX)
    (hx : x = .value y ∨ ((s.vec a).theSize < (s.vec a).theCapacity ∧ readRef s x = .ok y)) :
    ∃ (s1 : Store T) (arr1 : List T), push_back s a x = .ok s1 ∧ Owns s1 a arr1 ∧
      (s1.vec a).theSize = (s.vec a).theSize + 1 ∧
      (s1.vec a).theCapacity = (if (s.vec a).theSize = (s.vec a).theCapacity
        then 2 * (s.vec a).theCapacity + 1 else (s.vec a).theCapacity) ∧
      (∀ i : Nat, (i : Int) < (s.vec a).theSize → arr1[i]? = arr[i]?) ∧
      arr1[(s.vec a).theSize.toNat]? = some y ∧
      Frame s s1 a :=
  push_back_spec_of_increment s a x y arr hown h0 hsz hroom
    (by rcases hroom with h | h <;> omega) hx

/-- A `push_back` of an object outside the heap arrays that completes has run
on a size that is not negative, with room or an `int` to grow to. -/
theorem push_back_ok (s s1 : Store T) (a : Nat) (x : T) (arr : List T)
    (hown : Owns s a arr) (hsz : (s.vec a).theSize ≤ (s.vec a).theCapacity)
    (hpush : push_back s a (.value x) = .ok s1) :
    0 ≤ (s.vec a).theSize ∧
    ((s.vec a).theSize < (s.vec a).theCapacity ∨ 2 * (s.vec a).theCapacity + 1 ≤ INT_MAX) ∧
    (s.vec a).theSize + 1 ≤ INT_MAX := by
  have hcap : 0 ≤ (s.vec a).theCapacity := by rw [← hown.2]; omega
  have h0 : 0 ≤ (s.vec a).theSize := by
    by_contra hneg
    rw [push_back_negative s a x arr hown (by omega)] at hpush
    cases hpush
  have hroom : (s.vec a).theSize < (s.vec a).theCapacity ∨
      2 * (s.vec a).theCapacity + 1 ≤ INT_MAX := by
    by_contra hno
    rw [push_back_overflow s a _ hcap (by omega) (by omega)] at hpush
    cases hpush
  refine ⟨h0, hroom, ?_⟩
  by_contra hbig
  obtain ⟨_, _, _, _, _, _, _, _, heq⟩ :=
    push_back_steps s a (.value x) x arr hown h0 hsz hroom (Or.inl rfl)
  rw [heq, checkInt_overflow _ (by omega)] at hpush
  cases hpush

/-- Specification of the constructor for an initial size from `-16` on with
`initSize + SPARE_CAPACITY` an `int`. -/
theorem construct_spec (s : Store T) (a : Nat) (n : Int)
    (hn : 0 ≤ n + SPARE_CAPACITY) (hmax : n + SPARE_CAPACITY ≤ INT_MAX) :
    ∃ s1 : Store T, construct s a n = .ok s1 ∧
      Owns s1 a ((List.range (n + SPARE_CAPACITY).toNat).map (s.uninit s.heap.length)) ∧
      s1.vec a = ⟨n, n + SPARE_CAPACITY, s.heap.length⟩ ∧
      (∀ b, b ≠ a → s1.vec b = s.vec b) ∧
      (∀ q, q ≠ s.heap.length → s1.cell q = s.cell q) ∧
      s1.heap.length = s.heap.length + 1 := by
  have hmin : INT_MIN ≤ 0 := by decide
  have hcheck := checkInt_ok (n + SPARE_CAPACITY) (by omega) hmax
  obtain ⟨s1, hnew, hvec1, hlen1, hfresh1, hother1, _⟩ :=
    newArray_spec s (n + SPARE_CAPACITY) hn
  refine ⟨s1.setVec a ⟨n, n + SPARE_CAPACITY, s.heap.length⟩, ?_, ⟨?_, ?_⟩, by simp, ?_, ?_, ?_⟩
  · simp only [construct, hcheck, hnew]
  · simpa using hfresh1
  · simp only [Store.setVec_vec, if_true, List.length_map, List.length_range]; omega
  · intro b hb; simp [hb, hvec1]
  · intro q hq; simpa using hother1 q hq
  · simpa using hlen1

/-- For an initial size so large that `initSize + SPARE_CAPACITY` is not an
`int`, the constructor is undefined. -/
theorem construct_overflow (s : Store T) (a : Nat) (n : Int)
    (hbig : INT_MAX < n + SPARE_CAPACITY) : construct s a n = .error .undefinedBehaviour := by
  simp only [construct, checkInt_overflow _ hbig]

/-- The traversal of a live array reads its slots in index order. -/
theorem walk_spec (s : Store T) (p : Nat) (arr : List T) (hp : s.cell p = some arr) :
    ∀ (n k : Nat), k + n ≤ arr.length →
      walk s p n (k : Int) = .ok ((arr.drop k).take n) := by
  intro n
  induction n with
  | zero => intro k _; simp [walk]
  | succ n ih =>
    intro k hk
    have hk1 : k < arr.length := by omega
    have hr := readAt_live s p arr k arr[k] hp (List.getElem?_eq_getElem hk1)
    have hcast : ((k : Int) + 1) = ((k + 1 : Nat) : Int) := by push_cast; ring
    have hrec := ih (k + 1) (by omega)
    simp only [walk, hr, hcast, hrec]
    rw [List.drop_eq_getElem_cons hk1, List.take_succ_cons]

theorem Holds.size_eq {s : Store T} {a : Nat} {l : List T} (h : Holds s a l) :
    size s a = (l.length : Int) := by
  obtain ⟨arr, _, hsize, _, _⟩ := h
  exact hsize

theorem Holds.index_eq {s : Store T} {a : Nat} {l : List T} (h : Holds s a l) (i : Nat)
    (hi : i < l.length) : index s a (i : Int) = .ok l[i] := by
  obtain ⟨arr, hown, _, _, hget⟩ := h
  exact index_of_owns s a arr i l[i] hown (by rw [hget i hi]; exact List.getElem?_eq_getElem hi)

theorem Holds.traverse_eq {s : Store T} {a : Nat} {l : List T} (h : Holds s a l) :
    traverse s a = .ok l := by
  obtain ⟨arr, hown, hsize, hle, hget⟩ := h
  have hlen : l.length ≤ arr.length := by
    have := hown.2
    omega
  have hneg : ¬ (s.vec a).theSize < 0 := by omega
  have hw := walk_spec s (s.vec a).objects arr hown.1 l.length 0 (by omega)
  have htake : List.take l.length arr = l := by
    apply List.ext_getElem?
    intro i
    by_cases hi : i < l.length
    · rw [List.getElem?_take_of_lt hi]; exact hget i hi
    · rw [List.getElem?_eq_none (by simp; omega), List.getElem?_eq_none (by omega)]
  simp only [traverse, hneg, if_false, hsize, Int.toNat_ofNat]
  simp only [Nat.cast_zero, List.drop_zero, htake] at hw
  exact hw

/-- One `push_back` of an object outside the heap arrays appends its value to
the contents. -/
theorem Holds.after_push_back {s : Store T} {a : Nat} {l : List T} (h : Holds s a l)
    (x : T)
    (hroom : (s.vec a).theSize < (s.vec a).theCapacity ∨
      2 * (s.vec a).theCapacity + 1 ≤ INT_MAX)
    (hint : (s.vec a).theCapacity ≤ INT_MAX) :
    ∃ s1 : Store T, push_back s a (.value x) = .ok s1 ∧ Holds s1 a (l ++ [x]) ∧
      (s1.vec a).theCapacity = (if (s.vec a).theSize = (s.vec a).theCapacity
        then 2 * (s.vec a).theCapacity + 1 else (s.vec a).theCapacity) ∧ Frame s s1 a := by
  obtain ⟨arr, hown, hsize, hle, hget⟩ := h
  obtain ⟨s1, arr1, hpush, hown1, hsize1, hcap1, hkeep, hlast, hframe⟩ :=
    push_back_spec s a (.value x) x arr hown (by omega) hle hroom hint (Or.inl rfl)
  refine ⟨s1, hpush, ⟨arr1, hown1, ?_, ?_, ?_⟩, hcap1, hframe⟩
  · rw [hsize1, hsize]; simp
  · rw [hsize1, hcap1]; split_ifs <;> omega
  · intro i hi
    rw [List.length_append, List.length_singleton] at hi
    by_cases hi1 : i < l.length
    · rw [hkeep i (by omega), hget i hi1, List.getElem?_append_left hi1]
    · have hil : i = l.length := by omega
      rw [hsize, Int.toNat_ofNat] at hlast
      rw [hil, hlast, List.getElem?_append_right (le_refl _)]
      simp

/-- A `Vector` constructed with initial size 0 holds no element and has
capacity 16. -/
theorem Holds.after_construct (s : Store T) (a : Nat) :
    ∃ s1 : Store T, construct s a 0 = .ok s1 ∧ Holds s1 a [] ∧
      s1.vec a = ⟨0, 16, s.heap.length⟩ := by
  obtain ⟨s1, hc, hown, hvec, _, _, _⟩ :=
    construct_spec s a 0 (by decide) (by decide)
  have hvec1 : s1.vec a = ⟨0, 16, s.heap.length⟩ := by rw [hvec]; rfl
  refine ⟨s1, hc, ⟨_, hown, by simp [hvec1], by simp [hvec1], ?_⟩, hvec1⟩
  intro i hi
  simp at hi

/-- Specification of the copy constructor, run on an object other than its
argument. -/
theorem copyConstruct_spec (s : Store T) (a r : Nat) (arr : List T)
    (hne : a ≠ r) (hown : Owns s r arr) (hsz : (s.vec r).theSize ≤ (s.vec r).theCapacity) :
    ∃ (s1 : Store T) (arr1 : List T), copyConstruct s a r = .ok s1 ∧ Owns s1 a arr1 ∧
      s1.vec a = ⟨(s.vec r).theSize, (s.vec r).theCapacity, s.heap.length⟩ ∧
      (∀ i : Nat, (i : Int) < (s.vec r).theSize → arr1[i]? = arr[i]?) ∧
      (∀ b, b ≠ a → s1.vec b = s.vec b) ∧
      (∀ q, q ≠ s.heap.length → s1.cell q = s.cell q) ∧
      s1.heap.length = s.heap.length + 1 := by
  obtain ⟨hcell, hlen⟩ := hown
  have hcap : 0 ≤ (s.vec r).theCapacity := by omega
  have hold := s.cell_lt _ arr hcell
  have hpne : (s.vec r).objects ≠ s.heap.length := by omega
  have hra : r ≠ a := fun e => hne e.symm
  obtain ⟨s1, hnew, hvec1, hlen1, hfresh1, hother1, _⟩ :=
    newArray_spec s (s.vec r).theCapacity hcap
  have hA : (s1.setVec a ⟨(s.vec r).theSize, (s.vec r).theCapacity, s.heap.length⟩).cell
      (s.vec r).objects = some arr := by
    rw [Store.setVec_cell, hother1 _ hpne]; exact hcell
  have hB : (s1.setVec a ⟨(s.vec r).theSize, (s.vec r).theCapacity, s.heap.length⟩).cell
      s.heap.length = some ((List.range (s.vec r).theCapacity.toNat).map (s.uninit s.heap.length)) := by
    rw [Store.setVec_cell]; exact hfresh1
  obtain ⟨s3, B1, hcopy, hvec3, hlen3, hcell3, hother3, hlenB, hget⟩ :=
    copyElems_spec (s.vec r).objects s.heap.length hpne arr (s.vec r).theSize.toNat 0
      (s1.setVec a ⟨(s.vec r).theSize, (s.vec r).theCapacity, s.heap.length⟩)
      ((List.range (s.vec r).theCapacity.toNat).map (s.uninit s.heap.length)) hA hB (by omega)
      (by rw [List.length_map, List.length_range]; omega)
  refine ⟨s3, B1, ?_, ⟨?_, ?_⟩, ?_, ?_, ?_, ?_, ?_⟩
  · simp only [copyConstruct, hnew, Store.setVec_vec, if_true, hra, if_false, hvec1]
    simp only [Nat.cast_zero] at hcopy
    exact hcopy
  · simpa [hvec3] using hcell3
  · simp only [hvec3, Store.setVec_vec, if_true, hlenB, List.length_map, List.length_range]; omega
  · simp [hvec3]
  · intro i hi
    rw [hget i, if_pos (by omega)]
  · intro b hb; simp [hvec3, hb, hvec1]
  · intro q hq
    rw [hother3 q hq, Store.setVec_cell, hother1 q hq]
  · simp [hlen3, hlen1]

/-- Specification of the copy assignment between two different objects. -/
theorem assign_spec (s : Store T) (a r : Nat) (arrA arr : List T)
    (hne : a ≠ r) (hownA : Owns s a arrA) (hown : Owns s r arr)
    (hsz : (s.vec r).theSize ≤ (s.vec r).theCapacity) :
    ∃ (s1 : Store T) (arr1 : List T), assign s a r = .ok s1 ∧ Owns s1 a arr1 ∧
      s1.vec a = ⟨(s.vec r).theSize, (s.vec r).theCapacity, s.heap.length⟩ ∧
      (∀ i : Nat, (i : Int) < (s.vec r).theSize → arr1[i]? = arr[i]?) ∧
      (∀ b, b ≠ a → s1.vec b = s.vec b) ∧
      (∀ q, q ≠ s.heap.length → q ≠ (s.vec a).objects → s1.cell q = s.cell q) ∧
      s1.heap.length = s.heap.length + 1 := by
  obtain ⟨hcell, hlen⟩ := hown
  have hcap : 0 ≤ (s.vec r).theCapacity := by omega
  have hold := s.cell_lt _ arr hcell
  have holdA := s.cell_lt _ arrA hownA.1
  have hpne : (s.vec r).objects ≠ s.heap.length := by omega
  have hpneA : (s.vec a).objects ≠ s.heap.length := by omega
  have hra : r ≠ a := fun e => hne e.symm
  obtain ⟨s1, hnew, hvec1, hlen1, hfresh1, hother1, _⟩ :=
    newArray_spec s (s.vec r).theCapacity hcap
  have hA : s1.cell (s.vec r).objects = some arr := by rw [hother1 _ hpne]; exact hcell
  obtain ⟨s2, B1, hcopy, hvec2, hlen2, hcell2, hother2, hlenB, hget⟩ :=
    copyElems_spec (s.vec r).objects s.heap.length hpne arr (s.vec r).theSize.toNat 0 s1
      ((List.range (s.vec r).theCapacity.toNat).map (s.uninit s.heap.length)) hA hfresh1 (by omega)
      (by rw [List.length_map, List.length_range]; omega)
  have hdel : s2.cell (s.vec a).objects = some arrA := by
    rw [hother2 _ hpneA, hother1 _ hpneA]; exact hownA.1
  have hd := deleteArray_live _ _ _ hdel
  have hlt2 : (s.vec a).objects < s2.heap.length := by omega
  refine ⟨((s2.setHeap (s.vec a).objects none).setVec a
      ⟨(s.vec r).theSize, (s.vec r).theCapacity, s.heap.length⟩), B1, ?_, ⟨?_, ?_⟩, ?_, ?_, ?_,
      ?_, ?_⟩
  · simp only [Nat.cast_zero] at hcopy
    simp only [assign, hne, ne_eq, not_false_eq_true, if_true, hnew, hvec1, hcopy, hvec2, hd,
      Store.setVec_vec, Store.setHeap_vec, hra, if_false]
    congr 1
    unfold Store.setVec
    congr 1
    funext b
    by_cases hb : b = a <;> simp [hb]
  · simp only [Store.setVec_vec, if_true, Store.setVec_cell]
    rw [Store.cell_setHeap_ne _ _ _ _ hpneA.symm]; exact hcell2
  · simp only [Store.setVec_vec, if_true, hlenB, List.length_map, List.length_range]; omega
  · simp
  · intro i hi
    rw [hget i, if_pos (by omega)]
  · intro b hb; simp [hb, hvec2, hvec1]
  · intro q hq hqa
    rw [Store.setVec_cell, Store.cell_setHeap_ne _ _ _ _ hqa, hother2 q hq, hother1 q hq]
  · simp [hlen2, hlen1]

/-- Two constructed `Vector`s whose buffers agree at a slot read the same there. -/
theorem index_congr {s s1 : Store T} {a b : Nat} {arr arr1 : List T} (hown : Owns s a arr)
    (hown1 : Owns s1 b arr1) (i : Int) (h : arr1[i.toNat]? = arr[i.toNat]?) :
    index s1 b i = index s a i := by
  simp only [index, readAt, hown.1, hown1.1, h]

theorem pushAll_append (a : Nat) (xs ys : List T) :
    ∀ s : Store T, pushAll s a (xs ++ ys) =
      match pushAll s a xs with
      | .error e => .error e
      | .ok s1 => pushAll s1 a ys := by
  induction xs with
  | nil => intro s; simp [pushAll]
  | cons x xs ih =>
    intro s
    simp only [List.cons_append, pushAll]
    cases push_back s a (.value x) with
    | error e => rfl
    | ok s1 => exact ih s1

/-- While the buffer has room, `push_back` calls leave the capacity alone. -/
theorem Holds.pushAll_within_capacity (a : Nat) (xs : List T) :
    ∀ (s : Store T) (l : List T), Holds s a l →
      ((l.length + xs.length : Nat) : Int) ≤ (s.vec a).theCapacity →
      (s.vec a).theCapacity ≤ INT_MAX →
      ∃ s1 : Store T, pushAll s a xs = .ok s1 ∧ Holds s1 a (l ++ xs) ∧
        (s1.vec a).theCapacity = (s.vec a).theCapacity := by
  induction xs with
  | nil => intro s l h _ _; exact ⟨s, rfl, by simpa using h, rfl⟩
  | cons x xs ih =>
    intro s l h hroom hint
    have hsize : (s.vec a).theSize = (l.length : Int) := h.size_eq
    simp only [List.length_cons] at hroom
    have hne : (s.vec a).theSize ≠ (s.vec a).theCapacity := by omega
    obtain ⟨s1, hpush, hholds1, hcap1, _⟩ := h.after_push_back x (Or.inl (by omega)) hint
    rw [if_neg hne] at hcap1
    obtain ⟨s2, hall, hholds2, hcap2⟩ := ih s1 (l ++ [x]) hholds1
      (by rw [hcap1, List.length_append, List.length_singleton]; omega) (by rw [hcap1]; exact hint)
    exact ⟨s2, by simp only [pushAll, hpush, hall], by simpa using hholds2, by rw [hcap2, hcap1]⟩

/-- Effect of `pop_back` on a `Vector` that is not empty. -/
theorem pop_back_positive (s : Store T) (a : Nat) (h : (s.vec a).theSize > 0) :
    ((pop_back s a).vec a).theSize = (s.vec a).theSize - 1 ∧
    ((pop_back s a).vec a).theCapacity = (s.vec a).theCapacity ∧
    (pop_back s a).heap = s.heap ∧ ∀ i : Int, index (pop_back s a) a i = index s a i := by
  simp only [pop_back, h, if_true, Store.setVec_vec, Store.setVec_heap, index, readAt,
    Store.setVec_cell, true_and]
  intro i
  trivial

/-- A completed write happened inside a live array. -/
theorem writeAt_ok {s s1 : Store T} {p : Nat} {i : Int} {x : T} (h : writeAt s p i x = .ok s1) :
    ∃ arr : List T, s.cell p = some arr ∧ 0 ≤ i ∧ i < (arr.length : Int) ∧
      s1 = s.setHeap p (some (arr.set i.toNat x)) := by
  unfold writeAt at h
  cases hc : s.cell p with
  | none => simp [hc] at h
  | some arr =>
    simp only [hc] at h
    by_cases hb : i < 0 ∨ (arr.length : Int) ≤ i
    · simp [hb] at h
    · simp only [hb, if_false, Except.ok.injEq] at h
      exact ⟨arr, rfl, by omega, by omega, h.symm⟩

/-- A call that completes on a constructed `Vector` leaves it constructed, keeps
`size() <= capacity()`, does not lower the capacity, and touches nothing but
the object and its buffer. -/
theorem call_step (s s1 : Store T) (a : Nat) (k : Call T) (arr : List T)
    (hown : Owns s a arr) (hsz : (s.vec a).theSize ≤ (s.vec a).theCapacity)
    (hcall : call s a k = .ok s1) :
    ∃ arr1 : List T, Owns s1 a arr1 ∧ (s1.vec a).theSize ≤ (s1.vec a).theCapacity ∧
      (s.vec a).theCapacity ≤ (s1.vec a).theCapacity ∧ Frame s s1 a := by
  have hcap : 0 ≤ (s.vec a).theCapacity := by rw [← hown.2]; omega
  cases k with
  | assignIndex i x =>
    obtain ⟨arr0, hcell, hi0, hi1, hs1⟩ := writeAt_ok hcall
    have harr : arr0 = arr := by
      have h := hown.1
      rw [hcell] at h
      exact Option.some.inj h
    subst harr
    subst hs1
    have hlt := s.cell_lt _ arr0 hcell
    refine ⟨arr0.set i.toNat x, ⟨?_, ?_⟩, hsz, le_refl _, ?_⟩
    · simpa using Store.cell_setHeap_same s _ _ hlt
    · simpa using hown.2
    · exact ⟨fun _ _ => rfl, fun q hq _ => Store.cell_setHeap_ne _ _ _ _ hq, by simp,
        Or.inl rfl⟩
  | push_back x =>
    have hp : push_back s a (.value x) = .ok s1 := hcall
    obtain ⟨h0, hroom, hinc⟩ := push_back_ok s s1 a x arr hown hsz hp
    obtain ⟨s2, arr1, hp2, hown1, hsize1, hcap1, _, _, hframe⟩ :=
      push_back_spec_of_increment s a (.value x) x arr hown h0 hsz hroom hinc (Or.inl rfl)
    have hs : s2 = s1 := by
      rw [hp2] at hp
      exact Except.ok.inj hp
    subst hs
    refine ⟨arr1, hown1, ?_, ?_, hframe⟩
    · rw [hsize1, hcap1]; split_ifs <;> omega
    · rw [hcap1]; split_ifs <;> omega
  | pop_back =>
    have hs : s1 = pop_back s a := (Except.ok.inj hcall).symm
    subst hs
    unfold pop_back
    split_ifs with h
    · refine ⟨arr, ⟨by simpa using hown.1, by simpa using hown.2⟩, by simp; omega, by simp,
        ?_⟩
      exact ⟨fun b hb => by simp [hb], fun _ _ _ => rfl, le_refl _, Or.inl (by simp)⟩
    · exact ⟨arr, hown, hsz, le_refl _, Frame.refl s a⟩
  | resize n =>
    have hr0 : resize s a n = .ok s1 := hcall
    have hroom : n ≤ (s.vec a).theCapacity ∨ 2 * n + 1 ≤ INT_MAX := by
      by_contra hno
      rw [resize_overflow s a n hcap (by omega) (by omega)] at hr0
      cases hr0
    obtain ⟨s2, arr1, hr, hown1, hsize1, hcap1, _, _, _, hframe⟩ :=
      resize_spec s a n arr hown hsz hroom
    have hs : s2 = s1 := by
      rw [hr] at hr0
      exact Except.ok.inj hr0
    subst hs
    refine ⟨arr1, hown1, ?_, ?_, hframe⟩
    · rw [hsize1, hcap1]; split_ifs <;> omega
    · rw [hcap1]; split_ifs <;> omega
  | reserve n =>
    obtain ⟨s2, arr1, hr, hown1, hsize1, hcap1, _, _, _, _, hframe⟩ :=
      reserve_spec s a n arr hown hsz
    have hs : s2 = s1 := by
      have h : reserve s a n = .ok s1 := hcall
      rw [hr] at h
      exact Except.ok.inj h
    subst hs
    refine ⟨arr1, hown1, ?_, ?_, hframe⟩
    · rw [hsize1, hcap1]; exact le_trans hsz (le_max_left _ _)
    · rw [hcap1]; exact le_max_left _ _

/-- A sequence of `push_back` and `pop_back` calls on a `Vector` with
`0 <= size() <= capacity()` that never asks for more than `2^30 = 1073741824`
elements
completes, and the capacity never decreases from one store to the next. -/
theorem callAll_atBack (a : Nat) (cs : List (Call T)) :
    ∀ (s : Store T) (arr : List T), (∀ c ∈ cs, c.atBack = true) → Owns s a arr →
      0 ≤ (s.vec a).theSize → (s.vec a).theSize ≤ (s.vec a).theCapacity →
      (s.vec a).theCapacity ≤ INT_MAX → (s.vec a).theSize + (cs.length : Int) ≤ 1073741824 →
      ∃ trace : List (Store T), callAll s a cs = .ok trace ∧ trace.length = cs.length ∧
        List.Chain (fun t u : Store T => capacity t a ≤ capacity u a) s trace := by
  induction cs with
  | nil => intro s arr _ _ _ _ _ _; exact ⟨[], rfl, rfl, List.Chain.nil⟩
  | cons c cs ih =>
    intro s arr hback hown h0 hsz hint hbound
    have hc : c.atBack = true := hback c (List.mem_cons_self _ _)
    have hmax : INT_MAX = 2147483647 := rfl
    simp only [List.length_cons, Nat.cast_add, Nat.cast_one] at hbound
    have hrun : ∃ s1 : Store T, call s a c = .ok s1 ∧ 0 ≤ (s1.vec a).theSize ∧
        (s1.vec a).theCapacity ≤ INT_MAX ∧
        (s1.vec a).theSize + (cs.length : Int) ≤ 1073741824 := by
      cases c with
      | push_back x =>
        have hroom : (s.vec a).theSize < (s.vec a).theCapacity ∨
            2 * (s.vec a).theCapacity + 1 ≤ INT_MAX := by
          by_cases h : (s.vec a).theSize < (s.vec a).theCapacity
          · exact Or.inl h
          · right; omega
        obtain ⟨s1, arr1, hp, _, hsize1, hcap1, _⟩ := push_back_spec s a (.value x) x arr hown
          h0 hsz hroom hint (Or.inl rfl)
        refine ⟨s1, hp, by omega, ?_, by omega⟩
        rw [hcap1]; split_ifs <;> omega
      | pop_back =>
        refine ⟨pop_back s a, rfl, ?_⟩
        unfold pop_back
        split_ifs with h
        · simp only [Store.setVec_vec, if_true]
          exact ⟨by omega, hint, by omega⟩
        · exact ⟨h0, hint, by omega⟩
      | assignIndex i x => simp [Call.atBack] at hc
      | resize n => simp [Call.atBack] at hc
      | reserve n => simp [Call.atBack] at hc
    obtain ⟨s1, hcall, h01, hint1, hbound1⟩ := hrun
    obtain ⟨arr1, hown1, hsz1, hmono, _⟩ := call_step s s1 a c arr hown hsz hcall
    obtain ⟨trace, hall, hlen, hchain⟩ := ih s1 arr1
      (fun d hd => hback d (List.mem_cons_of_mem _ hd)) hown1 h01 hsz1 hint1 hbound1
    exact ⟨s1 :: trace, by simp only [callAll, hcall, hall], by simp [hlen],
      List.Chain.cons hmono hchain⟩

/-- Along a sequence of calls that completes on a constructed `Vector` with
`size() <= capacity()`, the capacity never decreases from one store to the
next. -/
theorem callAll_monotone (a : Nat) (cs : List (Call T)) :
    ∀ (s : Store T) (arr : List T) (trace : List (Store T)), Owns s a arr →
      (s.vec a).theSize ≤ (s.vec a).theCapacity → callAll s a cs = .ok trace →
      List.Chain (fun t u : Store T => capacity t a ≤ capacity u a) s trace := by
  induction cs with
  | nil =>
    intro s arr trace _ _ hrun
    simp only [callAll, Except.ok.injEq] at hrun
    subst hrun
    exact List.Chain.nil
  | cons k cs ih =>
    intro s arr trace hown hsz hrun
    simp only [callAll] at hrun
    cases hk : call s a k with
    | error e => simp [hk] at hrun
    | ok s1 =>
      simp only [hk] at hrun
      cases hrest : callAll s1 a cs with
      | error e => simp [hrest] at hrun
      | ok rest =>
        simp only [hrest, Except.ok.injEq] at hrun
        subst hrun
        obtain ⟨arr1, hown1, hsz1, hmono, _⟩ := call_step s s1 a k arr hown hsz hk
        exact List.Chain.cons hmono (ih s1 arr1 rest hown1 hsz1 hrest)

/-- Calls on a constructed `Vector` `c` leave alone a second constructed
`Vector` `v` that owns another buffer. -/
theorem callAll_frame (c v : Nat) (hne : c ≠ v) (vecV : Vector)
    (cellV : Option (List T)) (cs : List (Call T)) :
    ∀ (s : Store T) (arr : List T) (trace : List (Store T)), Owns s c arr →
      (s.vec c).theSize ≤ (s.vec c).theCapacity → s.vec v = vecV →
      s.cell vecV.objects = cellV → vecV.objects ≠ (s.vec c).objects →
      vecV.objects < s.heap.length → callAll s c cs = .ok trace →
      ∀ s2 ∈ trace, s2.vec v = vecV ∧ s2.cell vecV.objects = cellV := by
  induction cs with
  | nil =>
    intro s arr trace _ _ _ _ _ _ hrun s2 hs2
    simp only [callAll, Except.ok.injEq] at hrun
    subst hrun
    simp at hs2
  | cons k cs ih =>
    intro s arr trace hown hsz hvec hcell hpne hplt hrun s2 hs2
    simp only [callAll] at hrun
    cases hk : call s c k with
    | error e => simp [hk] at hrun
    | ok s1 =>
      simp only [hk] at hrun
      cases hrest : callAll s1 c cs with
      | error e => simp [hrest] at hrun
      | ok rest =>
        simp only [hrest, Except.ok.injEq] at hrun
        subst hrun
        obtain ⟨arr1, hown1, hsz1, _, hv, hc, hl, hp⟩ := call_step s s1 c k arr hown hsz hk
        have hvec1 : s1.vec v = vecV := by rw [hv v (fun e => hne e.symm), hvec]
        have hcell1 : s1.cell vecV.objects = cellV := by rw [hc _ hpne hplt, hcell]
        have hpne1 : vecV.objects ≠ (s1.vec c).objects := by
          rcases hp with h | h
          · rw [h]; exact hpne
          · omega
        rcases List.mem_cons.mp hs2 with h | h
        · subst h; exact ⟨hvec1, hcell1⟩
        · exact ih s1 arr1 rest hown1 hsz1 hvec1 hcell1 hpne1 (by omega) hrest s2 h

/-- With no throwing assignment the copy loop runs as `copyElems` does. -/
theorem copyElemsOrThrow_none (src dst : Nat) :
    ∀ (n : Nat) (k : Int) (s : Store T), copyElemsOrThrow src dst none n k s =
      match copyElems src dst n k s with
      | .ok s1 => .done s1
      | .error _ => .undefined := by
  intro n
  induction n with
  | zero => intro k s; rfl
  | succ n ih =>
    intro k s
    simp only [copyElemsOrThrow, copyElems]
    cases readAt s src k with
    | error e => rfl
    | ok x =>
      simp only [reduceCtorEq, if_false]
      cases writeAt s dst k x with
      | error e => rfl
      | ok s1 => exact ih (k + 1) s1

/-- Whether it completes or an assignment throws, the copy loop touches only
the destination array. -/
theorem copyElemsOrThrow_frame (src dst : Nat) (failAt : Option Int) :
    ∀ (n : Nat) (k : Int) (s s1 : Store T),
      (copyElemsOrThrow src dst failAt n k s = .done s1 ∨
        ∃ e, copyElemsOrThrow src dst failAt n k s = .threw e s1) →
      s1.vec = s.vec ∧ (∀ q, q ≠ dst → s1.cell q = s.cell q) ∧
        s1.heap.length = s.heap.length := by
  intro n
  induction n with
  | zero =>
    intro k s s1 h
    simp only [copyElemsOrThrow, Outcome.done.injEq, reduceCtorEq, exists_false, or_false] at h
    subst h
    exact ⟨rfl, fun _ _ => rfl, rfl⟩
  | succ n ih =>
    intro k s s1 h
    simp only [copyElemsOrThrow] at h
    cases hr : readAt s src k with
    | error e => simp [hr] at h
    | ok x =>
      simp only [hr] at h
      by_cases hf : failAt = some k
      · simp only [hf, if_true, reduceCtorEq, Outcome.threw.injEq, exists_eq_left', false_or] at h
        subst h
        exact ⟨rfl, fun _ _ => rfl, rfl⟩
      · simp only [hf, if_false] at h
        cases hw : writeAt s dst k x with
        | error e => simp [hw] at h
        | ok s2 =>
          simp only [hw] at h
          obtain ⟨arr, _, _, _, hs2⟩ := writeAt_ok hw
          obtain ⟨hvec, hcell, hlen⟩ := ih (k + 1) s2 s1 h
          subst hs2
          refine ⟨by simpa using hvec, fun q hq => ?_, by simpa using hlen⟩
          rw [hcell q hq, Store.cell_setHeap_ne _ _ _ _ hq]

/-- When the assignment of an element the loop reaches throws, the loop ends
with that exception. -/
theorem copyElemsOrThrow_throws (src dst : Nat) (hne : src ≠ dst) (A : List T) (j : Nat) :
    ∀ (n k : Nat) (s : Store T) (B : List T), s.cell src = some A → s.cell dst = some B →
      k + n ≤ A.length → k + n ≤ B.length → k ≤ j → j < k + n →
      ∃ s1 : Store T, copyElemsOrThrow src dst (some (j : Int)) n (k : Int) s =
        .threw .elementAssignment s1 := by
  intro n
  induction n with
  | zero => intro k s B _ _ _ _ h1 h2; omega
  | succ n ih =>
    intro k s B hA hB hkA hkB h1 h2
    have hkA1 : k < A.length := by omega
    have hkB1 : k < B.length := by omega
    have hr := readAt_live s src A k A[k] hA (List.getElem?_eq_getElem hkA1)
    by_cases hjk : j = k
    · subst hjk
      exact ⟨s, by simp only [copyElemsOrThrow, hr, if_true]⟩
    · have hw := writeAt_live s dst B k A[k] hB hkB1
      have hdlt := s.cell_lt dst B hB
      have hA1 : (s.setHeap dst (some (B.set k A[k]))).cell src = some A := by
        rw [Store.cell_setHeap_ne _ _ _ _ hne]; exact hA
      have hB1 : (s.setHeap dst (some (B.set k A[k]))).cell dst = some (B.set k A[k]) :=
        Store.cell_setHeap_same _ _ _ hdlt
      obtain ⟨s1, hc⟩ := ih (k + 1) (s.setHeap dst (some (B.set k A[k]))) (B.set k A[k])
        hA1 hB1 (by omega) (by simp; omega) (by omega) (by omega)
      have hcast : ((k : Int) + 1) = ((k + 1 : Nat) : Int) := by push_cast; ring
      have hjk1 : ¬ (some (j : Int) = some (k : Int)) := by
        intro h
        exact hjk (by exact_mod_cast Option.some.inj h)
      exact ⟨s1, by simp only [copyElemsOrThrow, hr, hjk1, if_false, hw, hcast, hc]⟩

/-- In a run where nothing is made to throw, `operator=` completes exactly when
`assign` does, in the same store. -/
theorem assignOrThrow_no_faults (s s1 : Store T) (a r : Nat) :
    assignOrThrow ⟨false, none⟩ s a r = .done s1 ↔ assign s a r = .ok s1 := by
  unfold assignOrThrow assign
  by_cases hne : a ≠ r
  · rw [if_pos hne, if_pos hne]
    simp only [Bool.false_eq_true, if_false]
    cases hnew : newArray s (s.vec r).theCapacity with
    | error e => simp
    | ok pr =>
      obtain ⟨p, s0⟩ := pr
      simp only [copyElemsOrThrow_none]
      cases hcopy : copyElems (s0.vec r).objects p (s0.vec r).theSize.toNat 0 s0 with
      | error e => simp
      | ok s2 =>
        simp only
        cases hdel : deleteArray s2 (s2.vec a).objects with
        | error e => simp
        | ok s3 => simp
  · simp [hne]

/-- A `new T[n]` that returns hands out the next address and leaves the objects
and the other arrays alone. -/
theorem newArray_ok {s s1 : Store T} {n : Int} {p : Nat}
    (h : newArray s n = .ok (p, s1)) :
    p = s.heap.length ∧ s1.vec = s.vec ∧ ∀ q, q ≠ s.heap.length → s1.cell q = s.cell q := by
  by_cases hn : 0 ≤ n
  · obtain ⟨s2, hnew, hvec, _, _, hother, _⟩ := newArray_spec s n hn
    rw [hnew] at h
    simp only [Except.ok.injEq, Prod.mk.injEq] at h
    obtain ⟨hp, hs⟩ := h
    subst hs
    exact ⟨hp.symm, hvec, hother⟩
  · have hlt : n < 0 := by omega
    simp [newArray, hlt] at h

/-- The counting copy loop does what `copyElems` does and counts one copy for
each iteration. -/
theorem copyElemsCounted_eq (src dst : Nat) :
    ∀ (n : Nat) (k : Int) (s : Store T), copyElemsCounted src dst n k s =
      match copyElems src dst n k s with
      | .ok s1 => .ok (s1, n)
      | .error e => .error e := by
  intro n
  induction n with
  | zero => intro k s; rfl
  | succ n ih =>
    intro k s
    simp only [copyElemsCounted, copyElems]
    cases hr : readAt s src k with
    | error e => rfl
    | ok x =>
      simp only
      cases hw : writeAt s dst k x with
      | error e => rfl
      | ok s1 =>
        simp only [ih (k + 1) s1]
        cases hc : copyElems src dst n (k + 1) s1 with
        | error e => rfl
        | ok s2 => rfl

/-- The counting `reserve` does what `reserve` does and counts `size()` copies
when it reallocates. -/
theorem reserveCounted_eq (s : Store T) (a : Nat) (n : Int) :
    reserveCounted s a n =
      match reserve s a n with
      | .ok s1 => .ok (s1, if n ≤ (s.vec a).theCapacity then 0 else (s.vec a).theSize.toNat)
      | .error e => .error e := by
  unfold reserveCounted reserve
  by_cases hle : n ≤ (s.vec a).theCapacity
  · simp only [hle, if_true]
  · simp only [hle, if_false]
    cases hnew : newArray s n with
    | error e => rfl
    | ok pr =>
      obtain ⟨p, s1⟩ := pr
      obtain ⟨_, hvec1, _⟩ := newArray_ok hnew
      simp only [copyElemsCounted_eq, Store.setVec_vec, if_true, hvec1]
      generalize hc : copyElems (s.vec a).objects p (s.vec a).theSize.toNat 0 _ = r
      cases r with
      | error e => rfl
      | ok s3 =>
        simp only
        generalize hd : deleteArray _ (s.vec a).objects = r2
        cases r2 with
        | error e => rfl
        | ok s5 => rfl

/-- The counting `push_back` does what `push_back` does and counts `size()`
copies when the buffer is full. -/
theorem push_backCounted_eq (s : Store T) (a : Nat) (x : Ref T)
    (hcap : 0 ≤ (s.vec a).theCapacity) :
    push_backCounted s a x =
      match push_back s a x with
      | .ok s1 => .ok (s1, if (s.vec a).theSize = (s.vec a).theCapacity
          then (s.vec a).theSize.toNat else 0)
      | .error e => .error e := by
  unfold push_backCounted push_back
  by_cases heq : (s.vec a).theSize = (s.vec a).theCapacity
  · simp only [heq, if_true]
    cases htw : twicePlusOne (s.vec a).theCapacity with
    | error e => rfl
    | ok n =>
      obtain ⟨hn, _⟩ := twicePlusOne_eq_ok htw
      have hgrow : ¬ (n ≤ (s.vec a).theCapacity) := by omega
      simp only [reserveCounted_eq, hgrow, if_false]
      generalize hr : reserve s a n = r
      cases r with
      | error e => rfl
      | ok s1 =>
        simp only
        generalize hx : readRef s1 x = rx
        cases rx with
        | error e => rfl
        | ok y =>
          simp only
          generalize hw : writeAt s1 (s1.vec a).objects (s1.vec a).theSize y = r2
          cases r2 with
          | error e => rfl
          | ok s2 =>
            simp only
            generalize hc : checkInt ((s2.vec a).theSize + 1) = r3
            cases r3 with
            | error e => rfl
            | ok m => simp only [heq]
  · simp only [heq, if_false]
    generalize hx : readRef s x = rx
    cases rx with
    | error e => rfl
    | ok y =>
      simp only
      generalize hw : writeAt s (s.vec a).objects (s.vec a).theSize y = r2
      cases r2 with
      | error e => rfl
      | ok s2 =>
        simp only
        generalize hc : checkInt ((s2.vec a).theSize + 1) = r3
        cases r3 with
        | error e => rfl
        | ok m => rfl

/-- The counting run fails exactly where the plain run does. -/
theorem pushAllCounted_error (a : Nat) (xs : List T) :
    ∀ (s : Store T) (arr : List T) (e : Fault), Owns s a arr →
      (s.vec a).theSize ≤ (s.vec a).theCapacity →
      pushAll s a xs = .error e → pushAllCounted s a xs = .error e := by
  induction xs with
  | nil => intro s arr e _ _ h; cases h
  | cons x xs ih =>
    intro s arr e hown hsz h
    have hcap : 0 ≤ (s.vec a).theCapacity := by rw [← hown.2]; omega
    simp only [pushAll] at h
    simp only [pushAllCounted, push_backCounted_eq s a (.value x) hcap]
    cases hp : push_back s a (.value x) with
    | error e1 =>
      rw [hp] at h
      simp only at h
      rw [h]
    | ok s1 =>
      rw [hp] at h
      simp only at h
      obtain ⟨arr1, hown1, hsz1, _, _⟩ := call_step s s1 a (.push_back x) arr hown hsz hp
      simp only [ih s1 arr1 e hown1 hsz1 h]

/-- Induction over a run of `push_back` calls that ends with `m` elements: a
property of the length, the capacity and the number of copies so far that
every call preserves, and that rules out overflow below `m` elements, holds at
the end of the run; the run completes, and the counting run ends in the store
of the plain run. -/
theorem pushAllCounted_invariant (a : Nat) (m : Nat) (P : Nat → Int → Nat → Prop)
    (hstep : ∀ (n : Nat) (cap : Int) (c : Nat), P n cap c → (n : Int) ≤ cap → n < m →
      P (n + 1) (if (n : Int) = cap then 2 * cap + 1 else cap)
        (c + if (n : Int) = cap then n else 0))
    (hsafe : ∀ (n : Nat) (cap : Int) (c : Nat), P n cap c → (n : Int) ≤ cap → n < m →
      cap ≤ INT_MAX ∧ ((n : Int) = cap → 2 * cap + 1 ≤ INT_MAX))
    (xs : List T) :
    ∀ (s : Store T) (l : List T) (c0 : Nat), l.length + xs.length = m → Holds s a l →
      P l.length (s.vec a).theCapacity c0 →
      ∃ (s1 : Store T) (c : Nat), pushAllCounted s a xs = .ok (s1, c) ∧
        pushAll s a xs = .ok s1 ∧ Holds s1 a (l ++ xs) ∧
        P (l ++ xs).length (s1.vec a).theCapacity (c0 + c) := by
  induction xs with
  | nil =>
    intro s l c0 _ h hP
    exact ⟨s, 0, rfl, rfl, by simpa using h, by simpa using hP⟩
  | cons x xs ih =>
    intro s l c0 hm h hP
    have hsize : (s.vec a).theSize = (l.length : Int) := h.size_eq
    have hle : (s.vec a).theSize ≤ (s.vec a).theCapacity := by
      obtain ⟨_, _, _, hle, _⟩ := h
      exact hle
    simp only [List.length_cons] at hm
    obtain ⟨hint, hgrow⟩ := hsafe l.length (s.vec a).theCapacity c0 hP (by omega) (by omega)
    have hroom : (s.vec a).theSize < (s.vec a).theCapacity ∨
        2 * (s.vec a).theCapacity + 1 ≤ INT_MAX := by
      by_cases hlt : (s.vec a).theSize < (s.vec a).theCapacity
      · exact Or.inl hlt
      · exact Or.inr (hgrow (by omega))
    obtain ⟨s1, hpush, hholds1, hcap1, _⟩ := h.after_push_back x hroom hint
    obtain ⟨arr, hown, _, _, _⟩ := h
    have hcap : 0 ≤ (s.vec a).theCapacity := by rw [← hown.2]; omega
    have hcount := push_backCounted_eq s a (.value x) hcap
    rw [hpush] at hcount
    simp only [hsize, Int.toNat_ofNat] at hcount hcap1
    have hP1 := hstep l.length (s.vec a).theCapacity c0 hP (by omega) (by omega)
    rw [← hcap1] at hP1
    obtain ⟨s2, c, hallc, hall, hholds2, hP2⟩ := ih s1 (l ++ [x])
      (c0 + if (l.length : Int) = (s.vec a).theCapacity then l.length else 0)
      (by rw [List.length_append, List.length_singleton]; omega) hholds1
      (by simpa using hP1)
    refine ⟨s2, (if (l.length : Int) = (s.vec a).theCapacity then l.length else 0) + c, ?_, ?_,
      by simpa using hholds2, ?_⟩
    · simp only [pushAllCounted, hcount, hallc]
    · simp only [pushAll, hpush, hall]
    · simpa [Nat.add_assoc] using hP2

theorem two_pow_le_of_le {j k : Nat} (h : j ≤ k) : (2 : Int) ^ j ≤ 2 ^ k :=
  pow_le_pow_right₀ (by norm_num) h

/-- The run of `push_back` calls on an empty `Vector` of capacity 16, for at
most `17 * 2^26 - 1 = 1140850687` values: it completes, the `Vector` holds the
values in call order, the capacity is `17 * 2^k - 1` for the least `k` that
makes room, and the copies made by `reserve` stay below the capacity. -/
theorem pushAll_closed_form (s0 : Store T) (v : Nat) (xs : List T) (hempty : Holds s0 v [])
    (hcap0 : (s0.vec v).theCapacity = 16) (hN : xs.length ≤ 1140850687) :
    ∃ (s1 : Store T) (c k : Nat), pushAllCounted s0 v xs = .ok (s1, c) ∧
      pushAll s0 v xs = .ok s1 ∧ Holds s1 v xs ∧
      (s1.vec v).theCapacity = 17 * 2 ^ k - 1 ∧ (xs.length : Int) ≤ 17 * 2 ^ k - 1 ∧
      (∀ j : Nat, j < k → (17 * 2 ^ j - 1 : Int) < (xs.length : Int)) ∧
      (c : Int) + 16 ≤ (s1.vec v).theCapacity ∧
      ((s1.vec v).theCapacity = 16 ∨ (s1.vec v).theCapacity + 1 ≤ 2 * (xs.length : Int)) := by
  have h26 : (2 : Int) ^ 26 = 67108864 := by norm_num
  have hmax : INT_MAX = 2147483647 := rfl
  obtain ⟨s1, c, hallc, hall, hholds, hP⟩ := pushAllCounted_invariant v xs.length
    (fun n cap c => (∃ k : Nat, cap = 17 * 2 ^ k - 1 ∧ (n : Int) ≤ cap ∧
        ∀ j : Nat, j < k → (17 * 2 ^ j - 1 : Int) < (n : Int)) ∧
      (c : Int) + 16 ≤ cap ∧ (cap = 16 ∨ cap + 1 ≤ 2 * (n : Int)))
    (by
      intro n cap c hP hn _
      obtain ⟨⟨k, hk, hle, hleast⟩, h1, h2⟩ := hP
      split_ifs with h
      · refine ⟨⟨k + 1, ?_, ?_, ?_⟩, ?_, ?_⟩
        · rw [hk, pow_succ]; ring
        · push_cast; omega
        · intro j hj
          by_cases hjk : j = k
          · subst hjk; push_cast; omega
          · have := hleast j (by omega)
            push_cast; omega
        · push_cast; omega
        · right; push_cast; omega
      · refine ⟨⟨k, hk, ?_, ?_⟩, ?_, ?_⟩
        · push_cast; omega
        · intro j hj
          have := hleast j hj
          push_cast; omega
        · push_cast; omega
        · rcases h2 with h2 | h2
          · left; exact h2
          · right; push_cast; omega)
    (by
      intro n cap c hP hn hlt
      obtain ⟨⟨k, hk, hle, hleast⟩, _, _⟩ := hP
      have hk26 : k ≤ 26 := by
        by_contra hgt
        have := hleast 26 (by omega)
        rw [h26] at this
        omega
      have hpow := two_pow_le_of_le hk26
      rw [h26] at hpow
      refine ⟨by omega, ?_⟩
      intro heq
      have hk25 : k + 1 ≤ 26 := by
        by_contra hgt
        have hk : k = 26 := by omega
        subst hk
        rw [h26] at *
        omega
      have hpow1 := two_pow_le_of_le hk25
      rw [h26, pow_succ] at hpow1
      omega)
    xs s0 [] 0 (by simp) hempty
    (by
      rw [hcap0]
      exact ⟨⟨0, by norm_num, by simp, fun j hj => absurd hj (Nat.not_lt_zero j)⟩,
        by simp, Or.inl rfl⟩)
  simp only [List.nil_append, Nat.zero_add] at hP hholds
  obtain ⟨⟨k, hk, hle, hleast⟩, h1, h2⟩ := hP
  exact ⟨s1, c, k, hallc, hall, hholds, hk, by rw [← hk]; exact hle, hleast, h1, h2⟩

/-- The `17 * 2^26 = 1140850688`-th `push_back` on a `Vector` constructed with
capacity 16 finds the buffer full with capacity `1140850687`, and
`2 * theCapacity + 1` overflows. -/
theorem pushAll_overflow (s0 : Store T) (v : Nat) (xs : List T) (hempty : Holds s0 v [])
    (hcap0 : (s0.vec v).theCapacity = 16) (hN : xs.length = 1140850688) :
    pushAll s0 v xs = .error .undefinedBehaviour ∧
    pushAllCounted s0 v xs = .error .undefinedBehaviour := by
  have h26 : (2 : Int) ^ 26 = 67108864 := by norm_num
  have hmax : INT_MAX = 2147483647 := rfl
  have hne : xs ≠ [] := by
    intro h
    rw [h] at hN
    simp at hN
  have hsplit : xs.dropLast ++ [xs.getLast hne] = xs := List.dropLast_append_getLast hne
  have hlen : xs.dropLast.length = 1140850687 := by
    rw [List.length_dropLast, hN]
  obtain ⟨s1, c, k, _, hall, hholds, hk, hle, hleast, _, _⟩ :=
    pushAll_closed_form s0 v xs.dropLast hempty hcap0 (by omega)
  rw [hlen] at hle hleast
  have hk26 : k = 26 := by
    have h1 : k ≤ 26 := by
      by_contra hgt
      have := hleast 26 (by omega)
      rw [h26] at this
      omega
    by_contra hne26
    have h2 : k + 1 ≤ 26 := by omega
    have hpow := two_pow_le_of_le h2
    rw [h26, pow_succ] at hpow
    push_cast at hle
    omega
  subst hk26
  rw [h26] at hk
  have hsize : (s1.vec v).theSize = 1140850687 := by
    have h := hholds.size_eq
    rw [hlen] at h
    exact_mod_cast h
  have hpush : push_back s1 v (.value (xs.getLast hne)) = .error .undefinedBehaviour :=
    push_back_overflow s1 v _ (by omega) (by omega) (by omega)
  have hfail : pushAll s0 v xs = .error .undefinedBehaviour := by
    rw [← hsplit, pushAll_append, hall]
    simp only [pushAll, hpush]
  obtain ⟨arr, hown, _, hsz, _⟩ := hempty
  exact ⟨hfail, pushAllCounted_error v xs s0 arr _ hown hsz hfail⟩

/-- The declaration `Vector<int> v(1073741808);` followed by
`v.resize(1073741824);` completes and leaves a full `Vector` of capacity
`2^30`. -/
theorem hugeStore_spec :
    construct (emptyStore Int) 0 1073741808 = .ok hugeBase ∧
    resize hugeBase 0 1073741824 = .ok hugeStore ∧
    (hugeStore.vec 0).theSize = 1073741824 ∧ (hugeStore.vec 0).theCapacity = 1073741824 ∧
    ∃ arr : List Int, Owns hugeStore 0 arr := by
  have hspare : (1073741808 : Int) + SPARE_CAPACITY = 1073741824 := by decide
  obtain ⟨s1, hc, hown, hvec, _⟩ :=
    construct_spec (emptyStore Int) 0 1073741808 (by decide) (by decide)
  have hbase : hugeBase = s1 := by
    unfold hugeBase
    rw [hc]
    rfl
  rw [hspare] at hvec
  have hsz : (s1.vec 0).theSize ≤ (s1.vec 0).theCapacity := by rw [hvec]; decide
  obtain ⟨s2, arr2, hr, hown2, hsize2, hcap2, _⟩ :=
    resize_spec s1 0 1073741824 _ hown hsz (Or.inl (by rw [hvec]))
  have hstore : hugeStore = s2 := by
    unfold hugeStore
    rw [hbase, hr]
    rfl
  rw [hvec] at hcap2
  simp only [gt_iff_lt, lt_self_iff_false, if_false] at hcap2
  rw [hbase, hstore]
  exact ⟨hc, hr, hsize2, hcap2, arr2, hown2⟩

theorem hugeStore_push_back (x : Int) :
    size hugeStore 0 = 1073741824 ∧ capacity hugeStore 0 = 1073741824 ∧
    push_back hugeStore 0 (.value x) = .error .undefinedBehaviour := by
  obtain ⟨_, _, hsize, hcap, _⟩ := hugeStore_spec
  have hmax : INT_MAX = 2147483647 := rfl
  exact ⟨hsize, hcap, push_back_overflow hugeStore 0 _ (by omega) (by omega) (by omega)⟩

theorem back_eq_index (s : Store T) (a : Nat) (h1 : INT_MIN ≤ (s.vec a).theSize - 1)
    (h2 : (s.vec a).theSize - 1 ≤ INT_MAX) :
    back s a = index s a ((s.vec a).theSize - 1) := by
  simp only [back, index, checkInt_ok _ h1 h2]

theorem back_nonpositive (s : Store T) (a : Nat) (arr : List T) (hown : Owns s a arr)
    (h : (s.vec a).theSize ≤ 0) : back s a = .error .undefinedBehaviour := by
  unfold back checkInt
  by_cases hr : INT_MIN ≤ (s.vec a).theSize - 1 ∧ (s.vec a).theSize - 1 ≤ INT_MAX
  · have hneg : (s.vec a).theSize - 1 < 0 := by omega
    simp only [if_pos hr, readAt, hown.1, if_pos hneg]
  · simp only [if_neg hr]

end MemberLemmas

/-! ## The claims -/

section Claims

variable {T : Type}

/-- C1 fails as stated: on the `Vector` of `main`, constructed with initial size
0, the run of `push_back` calls for a list of `17 * 2^26 = 1140850688` values
does not complete: the last call finds the buffer full at capacity
`1140850687`, and `2 * theCapacity + 1` overflows `int`. -/
theorem push_back_sequence_counterexample :
    construct (emptyStore Int) 0 0 = .ok mainStore ∧
    (List.replicate 1140850688 (0 : Int)).length = 1140850688 ∧
    pushAll mainStore 0 (List.replicate 1140850688 (0 : Int)) = .error .undefinedBehaviour :=
  ⟨rfl, List.length_replicate _ _,
    (pushAll_overflow mainStore 0 (List.replicate 1140850688 (0 : Int))
      ⟨List.replicate 16 (0 : Int), ⟨rfl, rfl⟩, rfl, by decide,
        fun i hi => absurd hi (Nat.not_lt_zero i)⟩
      rfl (List.length_replicate _ _)).1⟩

/-- C1, amended: for every list `xs` of at most `17 * 2^26 - 1 = 1140850687`
values (so through every reallocation on the way), starting from a `Vector`
constructed with initial size 0, calling `push_back` on each element of `xs` in
order completes and yields
`size() == xs.length`; for every `i` below that length the element at index `i`
is `xs[i]`, and the traversal from `begin()` to `end()` yields `xs`. -/
theorem push_back_sequence_in_call_order (s : Store T) (v : Nat) (xs : List T)
    (hN : xs.length ≤ 1140850687) :
    ∃ s0 s1 : Store T, construct s v 0 = .ok s0 ∧ pushAll s0 v xs = .ok s1 ∧
      size s1 v = (xs.length : Int) ∧
      (∀ (i : Nat) (hi : i < xs.length), index s1 v (i : Int) = .ok xs[i]) ∧
      traverse s1 v = .ok xs := by
  obtain ⟨s0, hc, hholds0, hvec0⟩ := Holds.after_construct s v
  obtain ⟨s1, _, _, _, hall, hholds1, _⟩ :=
    pushAll_closed_form s0 v xs hholds0 (by rw [hvec0]) hN
  exact ⟨s0, s1, hc, hall, hholds1.size_eq, fun i hi => hholds1.index_eq i hi,
    hholds1.traverse_eq⟩

/-- Witness of the amended C1: the values 1, 2, 3 pushed on a `Vector`
constructed in the empty store. -/
theorem push_back_sequence_in_call_order_witness :
    ([1, 2, 3] : List Int).length ≤ 1140850687 ∧
    ∃ s0 s1 : Store Int, construct (emptyStore Int) 0 0 = .ok s0 ∧
      pushAll s0 0 [1, 2, 3] = .ok s1 ∧ size s1 0 = (([1, 2, 3] : List Int).length : Int) ∧
      (∀ (i : Nat) (hi : i < ([1, 2, 3] : List Int).length),
        index s1 0 (i : Int) = .ok ([1, 2, 3] : List Int)[i]) ∧
      traverse s1 0 = .ok [1, 2, 3] :=
  ⟨by decide, push_back_sequence_in_call_order (emptyStore Int) 0 [1, 2, 3] (by decide)⟩

/-- C3 fails as stated, in three ways.  A `Vector` constructed with initial size
-1 has `size() <= capacity()`, yet `push_back` writes at index -1, before the
start of its buffer.  On a full `Vector`, `push_back(v[0])` reads `v[0]` after
`reserve` has released the buffer it lives in.  And on a full `Vector` of
capacity `2^30`, `2 * theCapacity + 1` overflows `int`. -/
theorem push_back_contract_counterexample :
    construct (emptyStore Int) 0 (-1) = .ok negativeStore ∧
    Owns negativeStore 0 (List.replicate 15 (0 : Int)) ∧
    size negativeStore 0 = -1 ∧ capacity negativeStore 0 = 15 ∧
    size negativeStore 0 ≤ capacity negativeStore 0 ∧
    push_back negativeStore 0 (.value 7) = .error .undefinedBehaviour ∧
    (¬ ∃ s1 : Store Int, push_back negativeStore 0 (.value 7) = .ok s1 ∧
      size s1 0 = size negativeStore 0 + 1 ∧ index s1 0 (size negativeStore 0) = .ok 7) ∧
    size fullStore 0 = 16 ∧ capacity fullStore 0 = 16 ∧ index fullStore 0 0 = .ok 1 ∧
    push_back fullStore 0 (.element (fullStore.vec 0).objects 0) =
      .error .undefinedBehaviour ∧
    size hugeStore 0 = 1073741824 ∧ capacity hugeStore 0 = 1073741824 ∧
    push_back hugeStore 0 (.value 7) = .error .undefinedBehaviour := by
  have hpush : push_back negativeStore 0 (.value 7) = .error .undefinedBehaviour := by rfl
  obtain ⟨_, _, hsize, hcap, _⟩ := hugeStore_spec
  have hmax : INT_MAX = 2147483647 := rfl
  refine ⟨by rfl, ⟨by rfl, by rfl⟩, by rfl, by rfl, by decide, hpush, ?_, by rfl, by rfl,
    by rfl, by rfl, hsize, hcap, ?_⟩
  · rintro ⟨s1, h, _⟩
    rw [hpush] at h
    cases h
  · exact push_back_overflow hugeStore 0 _ (by omega) (by omega) (by omega)

/-- C3, amended: for every `Vector` with `0 <= size() <= capacity()`, with
`capacity()` an `int`, that has room or has `2 * capacity() + 1` an `int`, and
every value `x` held by an object outside the buffer, `push_back(x)` completes,
increases `size()` by exactly one, stores `x` at index old `size()`, leaves
every element at an index below old `size()` unchanged, and sets `capacity()`
to `2 * old capacity + 1` if old `size()` equals old `capacity()` and leaves it
unchanged otherwise; when the buffer has room the same holds for `x` referring
to an element `v[i]`.  In particular 17 `push_back` calls on a `Vector`
constructed with initial size 0 grow the buffer exactly once, on the 17th
call: the capacity is 16 after each of the first 16 calls and 33 after the
17th, and all 17 values are present in order. -/
theorem push_back_contract (s : Store T) (v : Nat) (x : T) (arr : List T)
    (hown : Owns s v arr) (h0 : 0 ≤ size s v) (hinv : size s v ≤ capacity s v)
    (hint : capacity s v ≤ INT_MAX)
    (hroom : size s v < capacity s v ∨ 2 * capacity s v + 1 ≤ INT_MAX) :
    (∃ s1 : Store T, push_back s v (.value x) = .ok s1 ∧ size s1 v = size s v + 1 ∧
      index s1 v (size s v) = .ok x ∧
      (∀ i : Nat, (i : Int) < size s v → index s1 v (i : Int) = index s v (i : Int)) ∧
      capacity s1 v = (if size s v = capacity s v then 2 * capacity s v + 1
        else capacity s v)) ∧
    (∀ (j : Int) (y : T), size s v < capacity s v → index s v j = .ok y →
      ∃ s1 : Store T, push_back s v (.element (s.vec v).objects j) = .ok s1 ∧
        size s1 v = size s v + 1 ∧ index s1 v (size s v) = .ok y ∧
        (∀ i : Nat, (i : Int) < size s v → index s1 v (i : Int) = index s v (i : Int)) ∧
        capacity s1 v = capacity s v) ∧
    (∀ (s0 : Store T) (w : Nat) (xs : List T), xs.length = 17 →
      ∃ s1 s17 : Store T, construct s0 w 0 = .ok s1 ∧ capacity s1 w = 16 ∧
        (∀ k : Nat, k ≤ 16 →
          ∃ sk : Store T, pushAll s1 w (xs.take k) = .ok sk ∧ capacity sk w = 16) ∧
        pushAll s1 w xs = .ok s17 ∧ capacity s17 w = 33 ∧ size s17 w = 17 ∧
        traverse s17 w = .ok xs ∧
        ∀ (i : Nat) (hi : i < xs.length), index s17 w (i : Int) = .ok xs[i]) := by
  unfold size capacity at *
  have hmax : INT_MAX = 2147483647 := rfl
  refine ⟨?_, ?_, ?_⟩
  · obtain ⟨s1, arr1, hp, hown1, hsize1, hcap1, hkeep, hlast, _⟩ :=
      push_back_spec s v (.value x) x arr hown h0 hinv hroom hint (Or.inl rfl)
    refine ⟨s1, hp, hsize1, ?_, ?_, hcap1⟩
    · have h := index_of_owns s1 v arr1 (s.vec v).theSize.toNat x hown1 hlast
      rwa [Int.toNat_of_nonneg h0] at h
    · intro i hi
      exact index_congr hown hown1 (i : Int) (by simpa using hkeep i hi)
  · intro j y hlt hy
    obtain ⟨s1, arr1, hp, hown1, hsize1, hcap1, hkeep, hlast, _⟩ :=
      push_back_spec s v (.element (s.vec v).objects j) y arr hown h0 hinv (Or.inl hlt) hint
        (Or.inr ⟨hlt, hy⟩)
    refine ⟨s1, hp, hsize1, ?_, ?_, ?_⟩
    · have h := index_of_owns s1 v arr1 (s.vec v).theSize.toNat y hown1 hlast
      rwa [Int.toNat_of_nonneg h0] at h
    · intro i hi
      exact index_congr hown hown1 (i : Int) (by simpa using hkeep i hi)
    · rw [hcap1, if_neg (by omega)]
  · intro s0 w xs hlen
    obtain ⟨s1, hc, hholds1, hvec1⟩ := Holds.after_construct s0 w
    have hcap1 : (s1.vec w).theCapacity = 16 := by rw [hvec1]
    have hfirst : ∀ k : Nat, k ≤ 16 → ∃ sk : Store T, pushAll s1 w (xs.take k) = .ok sk ∧
        Holds sk w (xs.take k) ∧ (sk.vec w).theCapacity = 16 := by
      intro k hk
      obtain ⟨sk, hall, hholds, hcap⟩ := Holds.pushAll_within_capacity w (xs.take k) s1 _ hholds1
        (by rw [hcap1]; simp; omega) (by rw [hcap1, hmax]; decide)
      exact ⟨sk, hall, by simpa using hholds, by rw [hcap, hcap1]⟩
    obtain ⟨s16, hall16, hholds16, hcap16⟩ := hfirst 16 (le_refl _)
    have hsize16 : (s16.vec w).theSize = 16 := by
      have h := hholds16.size_eq
      simp only [size, List.length_take, hlen] at h
      simpa using h
    have h16 : 16 < xs.length := by omega
    obtain ⟨s17, hpush, hholds17, hcap17, _⟩ := hholds16.after_push_back xs[16]
      (by right; rw [hcap16, hmax]; decide) (by rw [hcap16, hmax]; decide)
    have hxs : xs.take 16 ++ [xs[16]] = xs := by
      have h1 := List.take_concat_get xs 16 h16
      rw [List.concat_eq_append] at h1
      rw [h1]
      exact List.take_of_length_le (by omega)
    rw [hxs] at hholds17
    have hall17 : pushAll s1 w xs = .ok s17 := by
      have h := pushAll_append w (xs.take 16) [xs[16]] s1
      rw [hxs, hall16] at h
      rw [h]
      simp only [pushAll, hpush]
    refine ⟨s1, s17, hc, hcap1, ?_, hall17, ?_, ?_, hholds17.traverse_eq,
      fun i hi => hholds17.index_eq i hi⟩
    · intro k hk
      obtain ⟨sk, hall, _, hcap⟩ := hfirst k hk
      exact ⟨sk, hall, hcap⟩
    · rw [hcap17, hsize16, hcap16]; simp
    · have h := hholds17.size_eq
      rw [hlen] at h
      simpa [size] using h

/-- Witness of the amended C3 on the `Vector` holding 1, 2, 3, `push_back(7)`
and `push_back(v[1])`, and on the full `Vector` of 16 elements, where
`push_back(7)` grows the buffer. -/
theorem push_back_contract_witness :
    Owns filledStore 0 ((1 : Int) :: 2 :: 3 :: List.replicate 13 0) ∧
    0 ≤ size filledStore 0 ∧ size filledStore 0 ≤ capacity filledStore 0 ∧
    capacity filledStore 0 ≤ INT_MAX ∧
    (size filledStore 0 < capacity filledStore 0 ∨
      2 * capacity filledStore 0 + 1 ≤ INT_MAX) ∧
    (∃ s1 : Store Int, push_back filledStore 0 (.value 7) = .ok s1 ∧
      size s1 0 = size filledStore 0 + 1 ∧ index s1 0 (size filledStore 0) = .ok 7 ∧
      (∀ i : Nat, (i : Int) < size filledStore 0 →
        index s1 0 (i : Int) = index filledStore 0 (i : Int)) ∧
      capacity s1 0 = (if size filledStore 0 = capacity filledStore 0
        then 2 * capacity filledStore 0 + 1 else capacity filledStore 0)) ∧
    (∃ s1 : Store Int, push_back filledStore 0 (.element (filledStore.vec 0).objects 1) =
        .ok s1 ∧ size s1 0 = size filledStore 0 + 1 ∧
      index s1 0 (size filledStore 0) = .ok 2 ∧
      (∀ i : Nat, (i : Int) < size filledStore 0 →
        index s1 0 (i : Int) = index filledStore 0 (i : Int)) ∧
      capacity s1 0 = capacity filledStore 0) ∧
    size fullStore 0 = capacity fullStore 0 ∧
    (∃ s1 : Store Int, push_back fullStore 0 (.value 7) = .ok s1 ∧
      size s1 0 = size fullStore 0 + 1 ∧ index s1 0 (size fullStore 0) = .ok 7 ∧
      (∀ i : Nat, (i : Int) < size fullStore 0 →
        index s1 0 (i : Int) = index fullStore 0 (i : Int)) ∧
      capacity s1 0 = (if size fullStore 0 = capacity fullStore 0
        then 2 * capacity fullStore 0 + 1 else capacity fullStore 0)) :=
  ⟨⟨rfl, rfl⟩, by decide, by decide, by decide, by decide,
    (push_back_contract filledStore 0 7 ((1 : Int) :: 2 :: 3 :: List.replicate 13 0)
      ⟨rfl, rfl⟩ (by decide) (by decide) (by decide) (by decide)).1,
    (push_back_contract filledStore 0 7 ((1 : Int) :: 2 :: 3 :: List.replicate 13 0)
      ⟨rfl, rfl⟩ (by decide) (by decide) (by decide) (by decide)).2.1 1 2 (by decide)
      (by rfl),
    by decide,
    (push_back_contract fullStore 0 7 (List.replicate 16 (1 : Int))
      ⟨rfl, rfl⟩ (by decide) (by decide) (by decide) (by decide)).1⟩

/-- C4: for every `Vector` with `size() <= capacity()` and every integer `n`,
`reserve(n)` completes, after it `capacity()` is the maximum of the old capacity
and `n` (the call changes nothing at all when `n <= capacity()`), `size()` is
unchanged, and every element at an index in `[0, size())` is as before. -/
theorem reserve_contract [Inhabited T] (s : Store T) (v : Nat) (n : Int) (arr : List T)
    (hown : Owns s v arr) (hinv : size s v ≤ capacity s v) :
    ∃ s1 : Store T, reserve s v n = .ok s1 ∧ capacity s1 v = max (capacity s v) n ∧
      (n ≤ capacity s v → s1 = s) ∧ (capacity s v < n → capacity s1 v = n) ∧
      size s1 v = size s v ∧
      ∀ i : Nat, (i : Int) < size s v → index s1 v (i : Int) = index s v (i : Int) := by
  unfold size capacity at *
  obtain ⟨s1, arr1, hr, hown1, hsize1, hcap1, hkeep, hnoop, _, _, _⟩ :=
    reserve_spec s v n arr hown hinv
  refine ⟨s1, hr, hcap1, fun h => (hnoop h).1, ?_, hsize1, ?_⟩
  · intro h
    rw [hcap1, max_eq_right (by omega)]
  · intro i hi
    exact index_congr hown hown1 (i : Int) (by simpa using hkeep i hi)

/-- Witness of C4: `reserve(40)` on the `Vector` of `main`. -/
theorem reserve_contract_witness :
    Owns mainStore 0 (List.replicate 16 (0 : Int)) ∧ size mainStore 0 ≤ capacity mainStore 0 ∧
    ∃ s1 : Store Int, reserve mainStore 0 40 = .ok s1 ∧
      capacity s1 0 = max (capacity mainStore 0) 40 ∧
      (40 ≤ capacity mainStore 0 → s1 = mainStore) ∧
      (capacity mainStore 0 < 40 → capacity s1 0 = 40) ∧
      size s1 0 = size mainStore 0 ∧
      ∀ i : Nat, (i : Int) < size mainStore 0 →
        index s1 0 (i : Int) = index mainStore 0 (i : Int) :=
  ⟨⟨rfl, rfl⟩, by decide,
    reserve_contract mainStore 0 40 (List.replicate 16 (0 : Int)) ⟨rfl, rfl⟩ (by decide)⟩

/-- C5 fails as stated: on the `Vector` holding 1, 2, 3, with capacity 16,
`resize(1073741824)` computes `newSize * 2 + 1`, which overflows `int`; the
call has undefined behaviour. -/
theorem resize_contract_counterexample :
    Owns filledStore 0 ((1 : Int) :: 2 :: 3 :: List.replicate 13 0) ∧
    size filledStore 0 ≤ capacity filledStore 0 ∧ (0 : Int) ≤ 1073741824 ∧
    INT_MAX < 1073741824 * 2 + 1 ∧
    resize filledStore 0 1073741824 = .error .undefinedBehaviour ∧
    ¬ ∃ s1 : Store Int, resize filledStore 0 1073741824 = .ok s1 ∧ size s1 0 = 1073741824 := by
  have h : resize filledStore 0 1073741824 = .error .undefinedBehaviour := by rfl
  refine ⟨⟨rfl, rfl⟩, by decide, by decide, by decide, h, ?_⟩
  rintro ⟨s1, h1, _⟩
  rw [h] at h1
  cases h1

/-- C5, amended: for every `Vector` with `size() <= capacity()` and every `n`
(so for every `n >= 0`) that is within the capacity or has `2 * n + 1` an
`int`, `resize(n)` completes, after it `size() == n`, and every element at an
index below `min(n, old size())` is unchanged, whether the call shrinks, grows
within the capacity or reallocates. -/
theorem resize_contract (s : Store T) (v : Nat) (n : Int) (arr : List T)
    (hown : Owns s v arr) (hinv : size s v ≤ capacity s v)
    (hroom : n ≤ capacity s v ∨ 2 * n + 1 ≤ INT_MAX) :
    ∃ s1 : Store T, resize s v n = .ok s1 ∧ size s1 v = n ∧
      ∀ i : Nat, (i : Int) < min n (size s v) → index s1 v (i : Int) = index s v (i : Int) := by
  unfold size capacity at *
  obtain ⟨s1, arr1, hr, hown1, hsize1, _, hkeep, _⟩ := resize_spec s v n arr hown hinv hroom
  refine ⟨s1, hr, hsize1, ?_⟩
  intro i hi
  have hi1 : (i : Int) < (s.vec v).theSize := lt_of_lt_of_le hi (min_le_right _ _)
  exact index_congr hown hown1 (i : Int) (by simpa using hkeep i hi1)

/-- Witness of the amended C5 on the `Vector` holding 1, 2, 3: `resize(40)`
reallocates and keeps the three elements, `resize(2)` keeps the first two. -/
theorem resize_contract_witness :
    Owns filledStore 0 ((1 : Int) :: 2 :: 3 :: List.replicate 13 0) ∧
    size filledStore 0 ≤ capacity filledStore 0 ∧
    (40 ≤ capacity filledStore 0 ∨ (2 : Int) * 40 + 1 ≤ INT_MAX) ∧
    (∃ s1 : Store Int, resize filledStore 0 40 = .ok s1 ∧ size s1 0 = 40 ∧
      ∀ i : Nat, (i : Int) < min 40 (size filledStore 0) →
        index s1 0 (i : Int) = index filledStore 0 (i : Int)) ∧
    (∃ s1 : Store Int, resize filledStore 0 2 = .ok s1 ∧ size s1 0 = 2 ∧
      ∀ i : Nat, (i : Int) < min 2 (size filledStore 0) →
        index s1 0 (i : Int) = index filledStore 0 (i : Int)) ∧
    min 40 (size filledStore 0) = 3 ∧ index filledStore 0 2 = .ok 3 ∧
    index (storeOr (resize filledStore 0 40) filledStore) 0 2 = .ok 3 :=
  ⟨⟨rfl, rfl⟩, by decide, by decide,
    resize_contract filledStore 0 40 ((1 : Int) :: 2 :: 3 :: List.replicate 13 0) ⟨rfl, rfl⟩
      (by decide) (by decide),
    resize_contract filledStore 0 2 ((1 : Int) :: 2 :: 3 :: List.replicate 13 0) ⟨rfl, rfl⟩
      (by decide) (by decide),
    by decide, by rfl, by rfl⟩

/-- C6 fails as stated, in three ways.  After `push_back(5)`, `pop_back()`,
`resize(1)` on a `Vector` constructed with initial size 0, the element at index
0, which `resize` has just exposed, is 5 and not the default value of `int`.
When `resize` reallocates, the exposed elements hold what `new T[n]` left in
the slots, here the 5 that the memory held.  And `resize(1073741824)`
overflows in `newSize * 2 + 1`. -/
theorem resize_default_counterexample :
    push_back mainStore 0 (.value 5) =
      .ok (storeOr (push_back mainStore 0 (.value 5)) mainStore) ∧
    size poppedStore 0 = 0 ∧ (1 : Int) > size poppedStore 0 ∧
    (∃ s1 : Store Int, resize poppedStore 0 1 = .ok s1 ∧ size s1 0 = 1 ∧
      index s1 0 0 = .ok 5 ∧ index s1 0 0 ≠ .ok (default : Int)) ∧
    (∃ s0 s1 : Store Int, construct staleStore 0 0 = .ok s0 ∧ size s0 0 = 0 ∧
      resize s0 0 40 = .ok s1 ∧ size s1 0 = 40 ∧ index s1 0 0 = .ok 5 ∧
      index s1 0 0 ≠ .ok (default : Int)) ∧
    resize poppedStore 0 1073741824 = .error .undefinedBehaviour := by
  have h : index (storeOr (resize poppedStore 0 1) poppedStore) 0 0 = .ok 5 := by rfl
  have h2 : index (storeOr (resize (storeOr (construct staleStore 0 0) staleStore) 0 40)
      staleStore) 0 0 = .ok 5 := by rfl
  refine ⟨by rfl, by rfl, by decide,
    ⟨storeOr (resize poppedStore 0 1) poppedStore, by rfl, by rfl, h, ?_⟩,
    ⟨storeOr (construct staleStore 0 0) staleStore,
      storeOr (resize (storeOr (construct staleStore 0 0) staleStore) 0 40) staleStore,
      by rfl, by rfl, by rfl, by rfl, h2, ?_⟩, by rfl⟩
  · rw [h]
    intro hc
    cases hc
  · rw [h2]
    intro hc
    cases hc

/-- C6, amended: for every `Vector` with `size() <= capacity()` and every `n`
(so for every `n > size()`) that is within the capacity or has `2 * n + 1` an
`int`, `resize(n)` completes; if `n` exceeds the old capacity, so that the
buffer is reallocated, every element at an index in `[old size(), n)` is the
value `new T[2 * n + 1]` left in that slot of the new buffer; if `n` is within
the old capacity, every such element is the value its buffer slot held before
the call. -/
theorem resize_exposed_slots (s : Store T) (v : Nat) (n : Int) (arr : List T)
    (hown : Owns s v arr) (hinv : size s v ≤ capacity s v)
    (hroom : n ≤ capacity s v ∨ 2 * n + 1 ≤ INT_MAX) :
    ∃ s1 : Store T, resize s v n = .ok s1 ∧ size s1 v = n ∧
      (capacity s v < n → ∀ i : Nat, size s v ≤ (i : Int) → (i : Int) < n →
        index s1 v (i : Int) = .ok (s.uninit s.heap.length i)) ∧
      (n ≤ capacity s v → ∀ i : Nat, size s v ≤ (i : Int) → (i : Int) < n →
        index s1 v (i : Int) = index s v (i : Int)) := by
  unfold size capacity at *
  obtain ⟨s1, arr1, hr, hown1, hsize1, _, _, hsame, hdef, _⟩ :=
    resize_spec s v n arr hown hinv hroom
  refine ⟨s1, hr, hsize1, ?_, ?_⟩
  · intro hgt i hi1 hi2
    exact index_of_owns s1 v arr1 i _ hown1 (hdef hgt i hi1 (by omega))
  · intro hle i _ _
    exact index_congr hown hown1 (i : Int) (by rw [hsame hle])

/-- Witness of the amended C6, after `push_back(5)`, `pop_back()`: `resize(1)`
stays within the capacity and exposes the 5, `resize(40)` reallocates and
exposes what the new buffer held. -/
theorem resize_exposed_slots_witness :
    Owns poppedStore 0 ((5 : Int) :: List.replicate 15 0) ∧
    size poppedStore 0 ≤ capacity poppedStore 0 ∧
    (1 ≤ capacity poppedStore 0 ∨ (2 : Int) * 1 + 1 ≤ INT_MAX) ∧
    (∃ s1 : Store Int, resize poppedStore 0 1 = .ok s1 ∧ size s1 0 = 1 ∧
      (capacity poppedStore 0 < 1 → ∀ i : Nat, size poppedStore 0 ≤ (i : Int) → (i : Int) < 1 →
        index s1 0 (i : Int) = .ok (poppedStore.uninit poppedStore.heap.length i)) ∧
      (1 ≤ capacity poppedStore 0 → ∀ i : Nat, size poppedStore 0 ≤ (i : Int) →
        (i : Int) < 1 → index s1 0 (i : Int) = index poppedStore 0 (i : Int))) ∧
    (∃ s1 : Store Int, resize poppedStore 0 40 = .ok s1 ∧ size s1 0 = 40 ∧
      (capacity poppedStore 0 < 40 → ∀ i : Nat, size poppedStore 0 ≤ (i : Int) →
        (i : Int) < 40 →
        index s1 0 (i : Int) = .ok (poppedStore.uninit poppedStore.heap.length i)) ∧
      (40 ≤ capacity poppedStore 0 → ∀ i : Nat, size poppedStore 0 ≤ (i : Int) →
        (i : Int) < 40 → index s1 0 (i : Int) = index poppedStore 0 (i : Int))) ∧
    capacity poppedStore 0 < 40 ∧ 1 ≤ capacity poppedStore 0 :=
  ⟨⟨rfl, rfl⟩, by decide, by decide,
    resize_exposed_slots poppedStore 0 1 ((5 : Int) :: List.replicate 15 0) ⟨rfl, rfl⟩
      (by decide) (by decide),
    resize_exposed_slots poppedStore 0 40 ((5 : Int) :: List.replicate 15 0) ⟨rfl, rfl⟩
      (by decide) (by decide),
    by decide, by decide⟩

/-- C7: `pop_back()` on a `Vector` with `size() == 0` leaves the whole state
unchanged; on a `Vector` with `size() > 0` it decreases `size()` by exactly one
and leaves `capacity()`, the buffer and with it every element unchanged. -/
theorem pop_back_contract (s : Store T) (v : Nat) :
    (size s v = 0 → pop_back s v = s) ∧
    (size s v > 0 →
      size (pop_back s v) v = size s v - 1 ∧ capacity (pop_back s v) v = capacity s v ∧
      (pop_back s v).heap = s.heap ∧
      ∀ i : Int, index (pop_back s v) v i = index s v i) := by
  unfold size capacity
  constructor
  · intro h
    have h1 : ¬ (s.vec v).theSize > 0 := by omega
    simp only [pop_back, h1, if_false]
  · intro h
    exact pop_back_positive s v h

/-- Witness of C7: `pop_back()` on the empty `Vector` of `main` and on that
`Vector` after one `push_back`. -/
theorem pop_back_contract_witness :
    size mainStore 0 = 0 ∧ pop_back mainStore 0 = mainStore ∧
    size (storeOr (push_back mainStore 0 (.value 5)) mainStore) 0 > 0 ∧
    size poppedStore 0 = size (storeOr (push_back mainStore 0 (.value 5)) mainStore) 0 - 1 :=
  ⟨rfl, (pop_back_contract mainStore 0).1 rfl, by decide,
    ((pop_back_contract (storeOr (push_back mainStore 0 (.value 5)) mainStore) 0).2 (by decide)).1⟩

/-- C8 fails as stated.  A `Vector` built by `Vector<int> v(1073741808)` and
`v.resize(1073741824)` has `0 <= size() <= capacity()`, both 1073741824, and
`push_back(7)` on it computes `2 * theCapacity + 1`, which overflows `int`:
the call has undefined behaviour and nothing is restored.  And on the full
`Vector` of 16 elements, `push_back(v[0])` reads `v[0]` after `reserve` has
released the buffer it lives in. -/
theorem push_pop_round_trip_counterexample :
    construct (emptyStore Int) 0 1073741808 = .ok hugeBase ∧
    resize hugeBase 0 1073741824 = .ok hugeStore ∧
    0 ≤ size hugeStore 0 ∧ size hugeStore 0 ≤ capacity hugeStore 0 ∧
    INT_MAX < 2 * capacity hugeStore 0 + 1 ∧
    (¬ ∃ s1 : Store Int, push_back hugeStore 0 (.value 7) = .ok s1 ∧
      size (pop_back s1 0) 0 = size hugeStore 0) ∧
    callAll hugeStore 0 [.push_back 7, .pop_back] = .error .undefinedBehaviour ∧
    0 ≤ size fullStore 0 ∧ size fullStore 0 ≤ capacity fullStore 0 ∧
    index fullStore 0 0 = .ok 1 ∧
    push_back fullStore 0 (.element (fullStore.vec 0).objects 0) =
      .error .undefinedBehaviour := by
  obtain ⟨hc, hr, _⟩ := hugeStore_spec
  obtain ⟨hsize, hcap, hpush⟩ := hugeStore_push_back 7
  have hmax : INT_MAX = 2147483647 := rfl
  refine ⟨hc, hr, ?_, ?_, ?_, ?_, ?_, by decide, by decide, by rfl, by rfl⟩
  · omega
  · omega
  · omega
  · rintro ⟨s1, h, _⟩
    rw [hpush] at h
    cases h
  · simp only [callAll, call, hpush]

/-- C8, amended: for every `Vector` with `0 <= size() <= capacity()`, with
`capacity()` an `int`, that has room or has `2 * capacity() + 1` an `int`, and
every value `x` held outside the buffer, `push_back(x)` followed by
`pop_back()` restores `size()` and leaves every element at an index in
`[0, size())` as it was; every finite sequence of `push_back` and `pop_back`
calls that takes `size()` to at most 1073741824 completes, and along every
sequence of such calls that completes `capacity()` never decreases from one
step to the next. -/
theorem push_pop_round_trip (s : Store T) (v : Nat) (x : T) (arr : List T)
    (hown : Owns s v arr) (h0 : 0 ≤ size s v) (hinv : size s v ≤ capacity s v)
    (hint : capacity s v ≤ INT_MAX)
    (hroom : size s v < capacity s v ∨ 2 * capacity s v + 1 ≤ INT_MAX) :
    (∃ s1 : Store T, push_back s v (.value x) = .ok s1 ∧
      size (pop_back s1 v) v = size s v ∧
      ∀ i : Nat, (i : Int) < size s v →
        index (pop_back s1 v) v (i : Int) = index s v (i : Int)) ∧
    (∀ cs : List (Call T), (∀ c ∈ cs, c.atBack = true) →
      size s v + (cs.length : Int) ≤ 1073741824 →
      ∃ trace : List (Store T), callAll s v cs = .ok trace ∧ trace.length = cs.length ∧
        List.Chain (fun t u : Store T => capacity t v ≤ capacity u v) s trace) ∧
    (∀ (cs : List (Call T)) (trace : List (Store T)), (∀ c ∈ cs, c.atBack = true) →
      callAll s v cs = .ok trace →
      List.Chain (fun t u : Store T => capacity t v ≤ capacity u v) s trace) := by
  refine ⟨?_, ?_, ?_⟩
  · obtain ⟨s1, arr1, hp, hown1, hsize1, _, hkeep, _, _⟩ :=
      push_back_spec s v (.value x) x arr hown h0 hinv hroom hint (Or.inl rfl)
    have hpos : (s1.vec v).theSize > 0 := by unfold size at *; omega
    obtain ⟨hsz, _, _, hidx⟩ := pop_back_positive s1 v hpos
    refine ⟨s1, hp, ?_, ?_⟩
    · unfold size at *; rw [hsz]; omega
    · intro i hi
      rw [hidx (i : Int)]
      exact index_congr hown hown1 (i : Int) (by simpa using hkeep i hi)
  · intro cs hcs hlen
    exact callAll_atBack v cs s arr hcs hown h0 hinv hint hlen
  · intro cs trace _ hall
    exact callAll_monotone v cs s arr trace hown hinv hall

/-- Witness of the amended C8 on the `Vector` holding 1, 2, 3, with the calls
`push_back(1)`, `pop_back()`, `pop_back()`, `push_back(2)`, and on the full
`Vector` of 16 elements, where `push_back(7)` grows the buffer. -/
theorem push_pop_round_trip_witness :
    Owns filledStore 0 ((1 : Int) :: 2 :: 3 :: List.replicate 13 0) ∧
    0 ≤ size filledStore 0 ∧
    size filledStore 0 ≤ capacity filledStore 0 ∧ capacity filledStore 0 ≤ INT_MAX ∧
    (size filledStore 0 < capacity filledStore 0 ∨
      2 * capacity filledStore 0 + 1 ≤ INT_MAX) ∧
    (∃ s1 : Store Int, push_back filledStore 0 (.value 7) = .ok s1 ∧
      size (pop_back s1 0) 0 = size filledStore 0 ∧
      ∀ i : Nat, (i : Int) < size filledStore 0 →
        index (pop_back s1 0) 0 (i : Int) = index filledStore 0 (i : Int)) ∧
    (∃ trace : List (Store Int),
      callAll filledStore 0 [.push_back 1, .pop_back, .pop_back, .push_back 2] = .ok trace ∧
      trace.length = 4 ∧
      List.Chain (fun t u : Store Int => capacity t 0 ≤ capacity u 0) filledStore trace) ∧
    size fullStore 0 = capacity fullStore 0 ∧
    (∃ s1 : Store Int, push_back fullStore 0 (.value 7) = .ok s1 ∧
      size (pop_back s1 0) 0 = size fullStore 0 ∧
      ∀ i : Nat, (i : Int) < size fullStore 0 →
        index (pop_back s1 0) 0 (i : Int) = index fullStore 0 (i : Int)) :=
  ⟨⟨rfl, rfl⟩, by decide, by decide, by decide, by decide,
    (push_pop_round_trip filledStore 0 7 ((1 : Int) :: 2 :: 3 :: List.replicate 13 0)
      ⟨rfl, rfl⟩ (by decide) (by decide) (by decide) (by decide)).1,
    (push_pop_round_trip filledStore 0 7 ((1 : Int) :: 2 :: 3 :: List.replicate 13 0)
      ⟨rfl, rfl⟩ (by decide) (by decide) (by decide) (by decide)).2.1
        [.push_back 1, .pop_back, .pop_back, .push_back 2] (by decide) (by decide),
    by decide,
    (push_pop_round_trip fullStore 0 7 (List.replicate 16 (1 : Int))
      ⟨rfl, rfl⟩ (by decide) (by decide) (by decide) (by decide)).1⟩

/-- C9 fails as stated.  `back()` makes no check: on the empty `Vector` of
`main`, whose size is 0, it reads index -1, before the start of the buffer;
that is undefined behaviour, and no exception or other failure is reported to
the caller.  And `push_back(x)` does not always complete, so that no `back()`
follows it: on a `Vector` of size -1 it writes before the buffer, on a full
`Vector` `push_back(v[0])` reads `v[0]` after the buffer is released, and with
size and capacity `2^30` it overflows in `2 * theCapacity + 1`. -/
theorem back_on_empty_counterexample :
    construct (emptyStore Int) 0 0 = .ok mainStore ∧
    size mainStore 0 = 0 ∧ empty mainStore 0 = true ∧
    back mainStore 0 = .error .undefinedBehaviour ∧
    (¬ ∃ f : Fault, f.isException = true ∧ back mainStore 0 = .error f) ∧
    push_back negativeStore 0 (.value 7) = .error .undefinedBehaviour ∧
    push_back fullStore 0 (.element (fullStore.vec 0).objects 0) =
      .error .undefinedBehaviour ∧
    push_back hugeStore 0 (.value 7) = .error .undefinedBehaviour := by
  have h : back mainStore 0 = .error .undefinedBehaviour := by rfl
  refine ⟨by rfl, by rfl, by rfl, h, ?_, by rfl, by rfl, (hugeStore_push_back 7).2.2⟩
  rintro ⟨f, hf, hb⟩
  rw [h] at hb
  cases hb
  simp [Fault.isException] at hf

/-- C9, amended: on a `Vector` with `size() <= capacity()` and `capacity()` an
`int`, `back()` returns the element at index `size() - 1` when `size() > 0`;
immediately after a `push_back(x)` that has room or has `2 * capacity() + 1`
an `int`, with `x` a value held outside the buffer, it returns `x`; and when
`size() <= 0` it makes no check and reads before the start of the buffer,
which is undefined behaviour and not an exception. -/
theorem back_contract (s : Store T) (v : Nat) (arr : List T)
    (hown : Owns s v arr) (hinv : size s v ≤ capacity s v) (hint : capacity s v ≤ INT_MAX) :
    (size s v > 0 → ∃ y : T, back s v = .ok y ∧ index s v (size s v - 1) = .ok y) ∧
    (0 ≤ size s v → (size s v < capacity s v ∨ 2 * capacity s v + 1 ≤ INT_MAX) →
      ∀ x : T, ∃ s1 : Store T, push_back s v (.value x) = .ok s1 ∧ back s1 v = .ok x) ∧
    (size s v ≤ 0 → back s v = .error .undefinedBehaviour ∧
      ¬ ∃ f : Fault, f.isException = true ∧ back s v = .error f) := by
  unfold size capacity at *
  have hmax : INT_MAX = 2147483647 := rfl
  have hmin : INT_MIN = -2147483648 := rfl
  refine ⟨?_, ?_, ?_⟩
  · intro h
    have hlt : ((s.vec v).theSize - 1).toNat < arr.length := by
      have := hown.2
      omega
    have hidx := index_of_owns s v arr _ arr[((s.vec v).theSize - 1).toNat] hown
      (List.getElem?_eq_getElem hlt)
    rw [Int.toNat_of_nonneg (by omega)] at hidx
    refine ⟨_, ?_, hidx⟩
    rw [back_eq_index s v (by omega) (by omega)]
    exact hidx
  · intro h0 hroom x
    obtain ⟨s1, arr1, hp, hown1, hsize1, hcap1, _, hlast, _⟩ :=
      push_back_spec s v (.value x) x arr hown h0 hinv hroom hint (Or.inl rfl)
    refine ⟨s1, hp, ?_⟩
    have hidx := index_of_owns s1 v arr1 _ x hown1 hlast
    rw [Int.toNat_of_nonneg h0] at hidx
    rw [back_eq_index s1 v (by omega) (by omega), hsize1]
    simpa using hidx
  · intro h
    have hb := back_nonpositive s v arr hown h
    refine ⟨hb, ?_⟩
    rintro ⟨f, hf, hf2⟩
    rw [hb] at hf2
    cases hf2
    simp [Fault.isException] at hf

/-- Witness of the amended C9 on the `Vector` holding 1, 2, 3 and on the empty
`Vector` of `main`. -/
theorem back_contract_witness :
    Owns filledStore 0 ((1 : Int) :: 2 :: 3 :: List.replicate 13 0) ∧
    size filledStore 0 ≤ capacity filledStore 0 ∧ capacity filledStore 0 ≤ INT_MAX ∧
    size filledStore 0 > 0 ∧
    (∃ y : Int, back filledStore 0 = .ok y ∧
      index filledStore 0 (size filledStore 0 - 1) = .ok y) ∧
    back filledStore 0 = .ok 3 ∧
    (∃ s1 : Store Int, push_back filledStore 0 (.value 7) = .ok s1 ∧ back s1 0 = .ok 7) ∧
    size mainStore 0 ≤ 0 ∧ back mainStore 0 = .error .undefinedBehaviour :=
  ⟨⟨rfl, rfl⟩, by decide, by decide, by decide,
    (back_contract filledStore 0 ((1 : Int) :: 2 :: 3 :: List.replicate 13 0) ⟨rfl, rfl⟩
      (by decide) (by decide)).1 (by decide),
    by rfl,
    (back_contract filledStore 0 ((1 : Int) :: 2 :: 3 :: List.replicate 13 0) ⟨rfl, rfl⟩
      (by decide) (by decide)).2.1 (by decide) (by decide) 7,
    by decide,
    ((back_contract mainStore 0 (List.replicate 16 (0 : Int)) ⟨rfl, rfl⟩
      (by decide) (by decide)).2.2 (by decide)).1⟩

/-- C10: for every `Vector` `v` (constructed, with `size() <= capacity()`), the
copy constructor run on another object `c` completes and gives `c` the size and
the capacity of `v` and, at every index in `[0, v.size())`, the element of `v`;
it leaves `v` as it was, and so does every later sequence of calls on `c`
(indexed assignment, `push_back`, `pop_back`, `resize`, `reserve`): after each
call `v` has its size, its capacity and, at every index, its element. -/
theorem copy_constructor_contract [Inhabited T] (s : Store T) (v c : Nat) (arr : List T)
    (hown : Owns s v arr) (hinv : size s v ≤ capacity s v) (hne : c ≠ v) :
    ∃ s1 : Store T, copyConstruct s c v = .ok s1 ∧
      size s1 c = size s v ∧ capacity s1 c = capacity s v ∧
      (∀ i : Nat, (i : Int) < size s v → index s1 c (i : Int) = index s v (i : Int)) ∧
      (size s1 v = size s v ∧ capacity s1 v = capacity s v ∧
        ∀ i : Int, index s1 v i = index s v i) ∧
      ∀ (cs : List (Call T)) (trace : List (Store T)), callAll s1 c cs = .ok trace →
        ∀ s2 ∈ trace, size s2 v = size s v ∧ capacity s2 v = capacity s v ∧
          ∀ i : Int, index s2 v i = index s v i := by
  unfold size capacity at *
  obtain ⟨s1, arr1, hcc, hown1, hvec1, hkeep, hvecs, hcells, hlen1⟩ :=
    copyConstruct_spec s c v arr hne hown hinv
  have hvc : v ≠ c := fun e => hne e.symm
  have hplt := s.cell_lt _ arr hown.1
  have hpne : (s.vec v).objects ≠ s.heap.length := by omega
  have hv1 : s1.vec v = s.vec v := hvecs v hvc
  have hc1 : s1.cell (s.vec v).objects = s.cell (s.vec v).objects := hcells _ hpne
  have hview : ∀ s2 : Store T, s2.vec v = s.vec v →
      s2.cell (s.vec v).objects = s.cell (s.vec v).objects →
      (s2.vec v).theSize = (s.vec v).theSize ∧ (s2.vec v).theCapacity = (s.vec v).theCapacity ∧
        ∀ i : Int, index s2 v i = index s v i := by
    intro s2 h1 h2
    refine ⟨by rw [h1], by rw [h1], fun i => ?_⟩
    simp only [index, readAt, h1, h2]
  refine ⟨s1, hcc, by rw [hvec1], by rw [hvec1], ?_, hview s1 hv1 hc1, ?_⟩
  · intro i hi
    exact index_congr hown hown1 (i : Int) (by simpa using hkeep i hi)
  · intro cs trace hrun s2 hs2
    have hsz1 : (s1.vec c).theSize ≤ (s1.vec c).theCapacity := by rw [hvec1]; exact hinv
    have hp1 : (s.vec v).objects ≠ (s1.vec c).objects := by rw [hvec1]; exact hpne
    obtain ⟨h1, h2⟩ := callAll_frame c v hne (s.vec v) (s.cell (s.vec v).objects) cs s1 arr1
      trace hown1 hsz1 hv1 hc1 hp1 (by omega) hrun s2 hs2
    exact hview s2 h1 h2

set_option maxRecDepth 8192 in
/-- Witness of C10: `v` holds 1, 2, 3, `c` is copy-constructed from it, and the
calls `c[0] = 9`, `c.push_back(4)`, `c.pop_back()`, `c.resize(50)`,
`c.reserve(200)` complete and leave `v` with its three elements. -/
theorem copy_constructor_contract_witness :
    Owns filledStore 0 ((1 : Int) :: 2 :: 3 :: List.replicate 13 0) ∧
    size filledStore 0 ≤ capacity filledStore 0 ∧ (1 : Nat) ≠ 0 ∧
    copyConstruct filledStore 1 0 = .ok copiedStore ∧
    size copiedStore 1 = 3 ∧ capacity copiedStore 1 = 16 ∧
    (∃ trace : List (Store Int),
      callAll copiedStore 1
        [.assignIndex 0 9, .push_back 4, .pop_back, .resize 50, .reserve 200] = .ok trace ∧
      trace.length = 5 ∧
      ∀ s2 ∈ trace, size s2 0 = size filledStore 0 ∧ capacity s2 0 = capacity filledStore 0 ∧
        ∀ i : Int, index s2 0 i = index filledStore 0 i) ∧
    index copiedStore 0 2 = .ok 3 := by
  obtain ⟨s1, hcc, _, _, _, _, hframe⟩ :=
    copy_constructor_contract filledStore 0 1 ((1 : Int) :: 2 :: 3 :: List.replicate 13 0)
      ⟨rfl, rfl⟩ (by decide) (by decide)
  have hs1 : s1 = copiedStore := by
    have h : copyConstruct filledStore 1 0 = .ok copiedStore := rfl
    rw [hcc] at h
    exact Except.ok.inj h
  subst hs1
  have hrun : callAll copiedStore 1
      [.assignIndex 0 9, .push_back 4, .pop_back, .resize 50, .reserve 200] =
      .ok (traceOr (callAll copiedStore 1
        [.assignIndex 0 9, .push_back 4, .pop_back, .resize 50, .reserve 200])) := rfl
  exact ⟨⟨rfl, rfl⟩, by decide, by decide, rfl, rfl, rfl,
    ⟨_, hrun, rfl, hframe _ _ hrun⟩, rfl⟩

/-- C11: self-assignment `a = a` completes and leaves the whole store, so the
size, the capacity and every element of `a`, unchanged; and for two different
`Vector`s `a` and `b`, each owning its buffer, `a = b` completes, after it `a`
has the size and the capacity of `b` and, at every index in `[0, b.size())`,
the element of `b`, and `b` has its size, its capacity and every element as
before. -/
theorem assignment_contract [Inhabited T] (s : Store T) (a b : Nat) (arrA arrB : List T)
    (hownA : Owns s a arrA) (hownB : Owns s b arrB) (hinvB : size s b ≤ capacity s b)
    (hne : a ≠ b) (hbuf : (s.vec a).objects ≠ (s.vec b).objects) :
    assign s a a = .ok s ∧
    ∃ s1 : Store T, assign s a b = .ok s1 ∧
      size s1 a = size s b ∧ capacity s1 a = capacity s b ∧
      (∀ i : Nat, (i : Int) < size s b → index s1 a (i : Int) = index s b (i : Int)) ∧
      size s1 b = size s b ∧ capacity s1 b = capacity s b ∧
      ∀ i : Int, index s1 b i = index s b i := by
  unfold size capacity at *
  refine ⟨by simp [assign], ?_⟩
  obtain ⟨s1, arr1, ha, hown1, hvec1, hkeep, hvecs, hcells, _⟩ :=
    assign_spec s a b arrA arrB hne hownA hownB hinvB
  have hba : b ≠ a := fun e => hne e.symm
  have hplt := s.cell_lt _ arrB hownB.1
  have hvb : s1.vec b = s.vec b := hvecs b hba
  have hcb : s1.cell (s.vec b).objects = s.cell (s.vec b).objects :=
    hcells _ (by omega) (fun e => hbuf e.symm)
  refine ⟨s1, ha, by rw [hvec1], by rw [hvec1], ?_, by rw [hvb], by rw [hvb], ?_⟩
  · intro i hi
    exact index_congr hownB hown1 (i : Int) (by simpa using hkeep i hi)
  · intro i
    simp only [index, readAt, hvb, hcb]

/-- Witness of C11: `v = c` where `v` holds 1, 2, 3 and `c` holds 1, 2, 3, 4. -/
theorem assignment_contract_witness :
    Owns twoStore 0 ((1 : Int) :: 2 :: 3 :: List.replicate 13 0) ∧
    Owns twoStore 1 ((1 : Int) :: 2 :: 3 :: 4 :: List.replicate 12 0) ∧
    size twoStore 1 ≤ capacity twoStore 1 ∧ (0 : Nat) ≠ 1 ∧
    (twoStore.vec 0).objects ≠ (twoStore.vec 1).objects ∧
    assign twoStore 0 0 = .ok twoStore ∧
    ∃ s1 : Store Int, assign twoStore 0 1 = .ok s1 ∧
      size s1 0 = size twoStore 1 ∧ capacity s1 0 = capacity twoStore 1 ∧
      (∀ i : Nat, (i : Int) < size twoStore 1 →
        index s1 0 (i : Int) = index twoStore 1 (i : Int)) ∧
      size s1 1 = size twoStore 1 ∧ capacity s1 1 = capacity twoStore 1 ∧
      ∀ i : Int, index s1 1 i = index twoStore 1 i :=
  ⟨⟨rfl, rfl⟩, ⟨rfl, rfl⟩, by decide, by decide, by decide,
    assignment_contract twoStore 0 1 ((1 : Int) :: 2 :: 3 :: List.replicate 13 0)
      ((1 : Int) :: 2 :: 3 :: 4 :: List.replicate 12 0) ⟨rfl, rfl⟩ ⟨rfl, rfl⟩ (by decide)
      (by decide) (by decide)⟩

/-- C12: `operator=` is atomic with respect to failure.  In every run of
`a = b` on a constructed `Vector` `a`, whichever statements throw, an exception
that leaves the function leaves `a` with its size, its capacity and every
element as before: the old buffer is released only after the copy loop has
completed.  Such runs exist: a throwing `new T[n]` ends the run in the store it
started in, and a throwing assignment of an element of `b` ends it in the copy
loop.  A run in which nothing throws completes exactly as `assign` does. -/
theorem assignment_failure_atomic [Inhabited T] (f : Faults) (s : Store T) (a b : Nat)
    (arrA : List T) (hownA : Owns s a arrA) :
    (∀ (e : Raised) (s1 : Store T), assignOrThrow f s a b = .threw e s1 →
      size s1 a = size s a ∧ capacity s1 a = capacity s a ∧
        ∀ i : Int, index s1 a i = index s a i) ∧
    (a ≠ b → f.allocation = true → assignOrThrow f s a b = .threw .allocation s) ∧
    (∀ (arrB : List T) (j : Nat), a ≠ b → Owns s b arrB → size s b ≤ capacity s b →
      f.allocation = false → f.elementAt = some (j : Int) → (j : Int) < size s b →
      ∃ s1 : Store T, assignOrThrow f s a b = .threw .elementAssignment s1) ∧
    (∀ s1 : Store T, assignOrThrow ⟨false, none⟩ s a b = .done s1 ↔ assign s a b = .ok s1) := by
  unfold size capacity
  have hplt := s.cell_lt _ arrA hownA.1
  refine ⟨?_, ?_, ?_, fun s1 => assignOrThrow_no_faults s s1 a b⟩
  · intro e s1 h
    have hsame : s1.vec = s.vec ∧ s1.cell (s.vec a).objects = s.cell (s.vec a).objects := by
      unfold assignOrThrow at h
      by_cases hne : a ≠ b
      · rw [if_pos hne] at h
        by_cases hf : f.allocation = true
        · simp only [hf, if_true, Outcome.threw.injEq] at h
          rw [← h.2]
          exact ⟨rfl, rfl⟩
        · have hf0 : f.allocation = false := by simpa using hf
          simp only [hf0, Bool.false_eq_true, if_false] at h
          cases hnew : newArray s (s.vec b).theCapacity with
          | error e0 =>
            simp only [hnew, Outcome.threw.injEq] at h
            rw [← h.2]
            exact ⟨rfl, rfl⟩
          | ok pr =>
            obtain ⟨p, s0⟩ := pr
            simp only [hnew] at h
            obtain ⟨hp, hvec0, hcell0⟩ := newArray_ok hnew
            cases hcopy : copyElemsOrThrow (s0.vec b).objects p f.elementAt
                (s0.vec b).theSize.toNat 0 s0 with
            | undefined => simp [hcopy] at h
            | done s2 =>
              simp only [hcopy] at h
              cases hdel : deleteArray s2 (s2.vec a).objects with
              | error e0 => simp [hdel] at h
              | ok s3 => simp [hdel] at h
            | threw e2 s2 =>
              simp only [hcopy, Outcome.threw.injEq] at h
              obtain ⟨_, hs⟩ := h
              subst hs
              obtain ⟨hvec2, hcell2, _⟩ := copyElemsOrThrow_frame _ _ _ _ _ _ _
                (Or.inr ⟨e2, hcopy⟩)
              have hq : (s.vec a).objects ≠ p := by omega
              refine ⟨by rw [hvec2, hvec0], ?_⟩
              rw [hcell2 _ hq, hcell0 _ (by omega)]
      · rw [if_neg hne] at h
        cases h
    obtain ⟨hvec, hcell⟩ := hsame
    refine ⟨by rw [hvec], by rw [hvec], fun i => ?_⟩
    simp only [index, readAt, hvec, hcell]
  · intro hne hf
    simp only [assignOrThrow, hne, ne_eq, not_false_eq_true, if_true, hf]
  · intro arrB j hne hownB hinvB hf hj hjlt
    have hcap : 0 ≤ (s.vec b).theCapacity := by rw [← hownB.2]; omega
    have hblt := s.cell_lt _ arrB hownB.1
    obtain ⟨s0, hnew, hvec0, _, hfresh0, hother0, _⟩ :=
      newArray_spec s (s.vec b).theCapacity hcap
    have hpne : (s.vec b).objects ≠ s.heap.length := by omega
    have hA : s0.cell (s.vec b).objects = some arrB := by
      rw [hother0 _ hpne]; exact hownB.1
    have hlenB := hownB.2
    obtain ⟨s1, hthrow⟩ := copyElemsOrThrow_throws (s.vec b).objects s.heap.length hpne arrB j
      (s.vec b).theSize.toNat 0 s0
      ((List.range (s.vec b).theCapacity.toNat).map (s.uninit s.heap.length)) hA
      hfresh0 (by omega) (by rw [List.length_map, List.length_range]; omega) (by omega)
      (by omega)
    refine ⟨s1, ?_⟩
    simp only [Nat.cast_zero] at hthrow
    simp only [assignOrThrow, hne, ne_eq, not_false_eq_true, if_true, hf, Bool.false_eq_true,
      if_false, hnew, hvec0, hj, hthrow]

/-- Witness of C12: in `v = c`, with `v` holding 1, 2, 3 and `c` holding
1, 2, 3, 4, the assignment of the element at index 2 throws; `v` still holds
1, 2, 3. -/
theorem assignment_failure_atomic_witness :
    Owns twoStore 0 ((1 : Int) :: 2 :: 3 :: List.replicate 13 0) ∧
    ∃ s1 : Store Int,
      assignOrThrow ⟨false, some 2⟩ twoStore 0 1 = .threw .elementAssignment s1 ∧
      size s1 0 = size twoStore 0 ∧ capacity s1 0 = capacity twoStore 0 ∧
      (∀ i : Int, index s1 0 i = index twoStore 0 i) ∧
      size s1 0 = 3 ∧ index s1 0 2 = .ok 3 := by
  have hown : Owns twoStore 0 ((1 : Int) :: 2 :: 3 :: List.replicate 13 0) := ⟨rfl, rfl⟩
  obtain ⟨hatomic, _, hthrows, _⟩ := assignment_failure_atomic ⟨false, some 2⟩ twoStore 0 1
    ((1 : Int) :: 2 :: 3 :: List.replicate 13 0) hown
  obtain ⟨s1, h⟩ := hthrows ((1 : Int) :: 2 :: 3 :: 4 :: List.replicate 12 0) 2 (by decide)
    ⟨rfl, rfl⟩ (by decide) rfl rfl (by decide)
  obtain ⟨h1, h2, h3⟩ := hatomic _ s1 h
  refine ⟨hown, s1, h, h1, h2, h3, ?_, ?_⟩
  · rw [h1]; rfl
  · rw [h3]; rfl

/-- C13 fails as stated, in two ways.  `new T[n]` writes nothing into the
buffer of an `int` array: in a memory that holds 5 everywhere, the elements of
`Vector<int> v(3)` are 5, not the default value 0.  And for the initial size
2147483632, which is not negative, `initSize + SPARE_CAPACITY` overflows
`int`, so the constructor has undefined behaviour. -/
theorem constructor_contract_counterexample :
    (0 : Int) ≤ 3 ∧
    (∃ s1 : Store Int, construct staleStore 0 3 = .ok s1 ∧ size s1 0 = 3 ∧
      index s1 0 0 = .ok 5 ∧ index s1 0 0 ≠ .ok (default : Int)) ∧
    (0 : Int) ≤ 2147483632 ∧ INT_MAX < 2147483632 + SPARE_CAPACITY ∧
    construct (emptyStore Int) 0 2147483632 = .error .undefinedBehaviour := by
  have h : index (storeOr (construct staleStore 0 3) staleStore) 0 0 = .ok 5 := by rfl
  refine ⟨by decide, ⟨storeOr (construct staleStore 0 3) staleStore, by rfl, by rfl, h, ?_⟩,
    by decide, by decide, construct_overflow _ 0 2147483632 (by decide)⟩
  rw [h]
  intro hc
  cases hc

/-- C13, amended: for every initial size `n >= 0` with `n + 16` an `int`, the
constructor completes and yields `size() == n` and `capacity() == n + 16`, the
constant `SPARE_CAPACITY`, and every element at an index in `[0, n)` is the
value `new T[n + 16]` left in that slot of the buffer; with the default
argument 0 the `Vector` is empty, with `size() == 0` and `capacity() == 16`. -/
theorem constructor_contract (s : Store T) (v : Nat) (n : Int) (hn : 0 ≤ n)
    (hmax : n + SPARE_CAPACITY ≤ INT_MAX) :
    (∃ s1 : Store T, construct s v n = .ok s1 ∧ size s1 v = n ∧
      capacity s1 v = n + SPARE_CAPACITY ∧ SPARE_CAPACITY = 16 ∧
      ∀ i : Nat, (i : Int) < n → index s1 v (i : Int) = .ok (s.uninit s.heap.length i)) ∧
    (∃ s0 : Store T, construct s v 0 = .ok s0 ∧ empty s0 v = true ∧ size s0 v = 0 ∧
      capacity s0 v = 16) := by
  unfold empty size capacity
  constructor
  · obtain ⟨s1, hc, hown, hvec, _⟩ :=
      construct_spec s v n (by unfold SPARE_CAPACITY; omega) hmax
    refine ⟨s1, hc, by rw [hvec], by rw [hvec], rfl, ?_⟩
    intro i hi
    exact index_of_owns s1 v _ i _ hown
      (fresh_getElem? _ _ i (by unfold SPARE_CAPACITY; omega))
  · obtain ⟨s0, hc, _, hvec0⟩ := Holds.after_construct s v
    exact ⟨s0, hc, by rw [hvec0]; rfl, by rw [hvec0], by rw [hvec0]⟩

/-- Witness of the amended C13: the declaration `Vector<int> v(3);` in a
memory that holds 5 everywhere. -/
theorem constructor_contract_witness :
    (0 : Int) ≤ 3 ∧ (3 : Int) + SPARE_CAPACITY ≤ INT_MAX ∧
    (∃ s1 : Store Int, construct staleStore 0 3 = .ok s1 ∧ size s1 0 = 3 ∧
      capacity s1 0 = 3 + SPARE_CAPACITY ∧ SPARE_CAPACITY = 16 ∧
      ∀ i : Nat, (i : Int) < 3 →
        index s1 0 (i : Int) = .ok (staleStore.uninit staleStore.heap.length i)) ∧
    staleStore.uninit staleStore.heap.length 2 = 5 :=
  ⟨by decide, by decide, (constructor_contract staleStore 0 3 (by decide) (by decide)).1, rfl⟩

/-- C14 fails as stated: after `push_back` of 1, 2, 3, 4, 5 on the `Vector` of
`main`, constructed with initial size 0, `capacity()` is 16 and not 21. -/
theorem main_scenario_counterexample :
    construct (emptyStore Int) 0 0 = .ok mainStore ∧
    ∃ s1 : Store Int, pushAll mainStore 0 [1, 2, 3, 4, 5] = .ok s1 ∧ size s1 0 = 5 ∧
      capacity s1 0 = 16 ∧ capacity s1 0 ≠ 21 :=
  ⟨rfl, storeOr (pushAll mainStore 0 [1, 2, 3, 4, 5]) mainStore, rfl, rfl, rfl, by decide⟩

/-- C14, amended: constructing a `Vector<int>` with initial size 0 and calling
`push_back` with 1, 2, 3, 4, 5 in that order gives the traversal 1, 2, 3, 4, 5,
`size() == 5` and `capacity() == 16`; one `pop_back()` then gives `size() == 4`
with `capacity()` unchanged. -/
theorem main_scenario (s : Store Int) (v : Nat) :
    ∃ s0 s1 : Store Int, construct s v 0 = .ok s0 ∧
      pushAll s0 v [1, 2, 3, 4, 5] = .ok s1 ∧ traverse s1 v = .ok [1, 2, 3, 4, 5] ∧
      size s1 v = 5 ∧ capacity s1 v = 16 ∧
      size (pop_back s1 v) v = 4 ∧ capacity (pop_back s1 v) v = capacity s1 v := by
  obtain ⟨s0, hc, hholds0, hvec0⟩ := Holds.after_construct s v
  have hcap0 : (s0.vec v).theCapacity = 16 := by rw [hvec0]
  obtain ⟨s1, hall, hholds1, hcap1⟩ :=
    Holds.pushAll_within_capacity v [1, 2, 3, 4, 5] s0 _ hholds0 (by rw [hcap0]; simp)
      (by rw [hcap0]; decide)
  simp only [List.nil_append] at hholds1
  have hsize1 : (s1.vec v).theSize = 5 := by
    have h := hholds1.size_eq
    simpa [size] using h
  obtain ⟨hsz, hcp, _, _⟩ := pop_back_positive s1 v (by omega)
  unfold size capacity
  exact ⟨s0, s1, hc, hall, hholds1.traverse_eq, hsize1, by rw [hcap1, hcap0],
    by rw [hsz, hsize1]; rfl, hcp⟩

/-- C16 fails as stated: for `N = 17 * 2^26 = 1140850688` the run of `N`
`push_back` calls on the `Vector` of `main`, constructed with initial size 0,
does not complete, so no count of copies results: the last call finds the
buffer full at capacity `1140850687`, and `2 * theCapacity + 1` overflows
`int`. -/
theorem push_back_amortized_copies_counterexample :
    construct (emptyStore Int) 0 0 = .ok mainStore ∧
    (List.replicate 1140850688 (1 : Int)).length = 1140850688 ∧
    pushAllCounted mainStore 0 (List.replicate 1140850688 (1 : Int)) =
      .error .undefinedBehaviour ∧
    ¬ ∃ (s1 : Store Int) (copies : Nat),
      pushAllCounted mainStore 0 (List.replicate 1140850688 (1 : Int)) = .ok (s1, copies) ∧
        copies ≤ 2 * 1140850688 := by
  have h := (pushAll_overflow mainStore 0 (List.replicate 1140850688 (1 : Int))
    ⟨List.replicate 16 (0 : Int), ⟨rfl, rfl⟩, rfl, by decide,
      fun i hi => absurd hi (Nat.not_lt_zero i)⟩
    rfl (List.length_replicate _ _)).2
  refine ⟨by rfl, List.length_replicate _ _, h, ?_⟩
  rintro ⟨s1, c, hc, _⟩
  rw [h] at hc
  cases hc

/-- C16, amended: amortized growth cost.  For every list of
`N <= 17 * 2^26 - 1 = 1140850687` values, the `N` `push_back` calls on a
`Vector` constructed with initial size 0 complete, and the elements copied
from the old buffer to the new one, summed over all the reallocations done by
`reserve`, number at most `2 * N`. -/
theorem push_back_amortized_copies (s : Store T) (v : Nat) (xs : List T)
    (hN : xs.length ≤ 1140850687) :
    ∃ (s0 s1 : Store T) (copies : Nat), construct s v 0 = .ok s0 ∧
      pushAllCounted s0 v xs = .ok (s1, copies) ∧ pushAll s0 v xs = .ok s1 ∧
      copies ≤ 2 * xs.length := by
  obtain ⟨s0, hc, hholds0, hvec0⟩ := Holds.after_construct s v
  obtain ⟨s1, c, _, hallc, hall, _, _, _, _, h1, h2⟩ :=
    pushAll_closed_form s0 v xs hholds0 (by rw [hvec0]) hN
  refine ⟨s0, s1, c, hc, hallc, hall, ?_⟩
  omega

/-- Witness of the amended C16: 40 values pushed on a `Vector` constructed in
the empty store; the two reallocations copy 16 and 33 elements. -/
theorem push_back_amortized_copies_witness :
    (List.replicate 40 (7 : Int)).length ≤ 1140850687 ∧
    (∃ (s0 s1 : Store Int) (copies : Nat), construct (emptyStore Int) 0 0 = .ok s0 ∧
      pushAllCounted s0 0 (List.replicate 40 7) = .ok (s1, copies) ∧
      pushAll s0 0 (List.replicate 40 7) = .ok s1 ∧
      copies ≤ 2 * (List.replicate 40 (7 : Int)).length) ∧
    (∃ s1 : Store Int,
      pushAllCounted mainStore 0 (List.replicate 40 7) = .ok (s1, 49)) :=
  ⟨by decide,
    push_back_amortized_copies (emptyStore Int) 0 (List.replicate 40 7) (by decide),
    ⟨storeOr (pushAll mainStore 0 (List.replicate 40 7)) mainStore, by rfl⟩⟩

/-- C17 fails as stated: on the `Vector` of 16 elements with capacity 16,
`resize(1500000000)` exceeds the capacity and computes `newSize * 2 + 1`,
which overflows `int`: the call has undefined behaviour and the capacity does
not become `2 * n + 1`. -/
theorem resize_capacity_policy_counterexample :
    size fullStore 0 ≤ capacity fullStore 0 ∧ (0 : Int) ≤ 1500000000 ∧
    1500000000 > capacity fullStore 0 ∧ INT_MAX < 2 * 1500000000 + 1 ∧
    resize fullStore 0 1500000000 = .error .undefinedBehaviour ∧
    ¬ ∃ s1 : Store Int, resize fullStore 0 1500000000 = .ok s1 ∧
      capacity s1 0 = 2 * 1500000000 + 1 := by
  have h : resize fullStore 0 1500000000 = .error .undefinedBehaviour := by rfl
  refine ⟨by decide, by decide, by decide, by decide, h, ?_⟩
  rintro ⟨s1, h1, _⟩
  rw [h] at h1
  cases h1

/-- C17, amended: capacity policy of `resize`.  For every `Vector` with
`size() <= capacity()` and every `n` (so for every `n >= 0`) that is within
the capacity or has `2 * n + 1` an `int`, `resize(n)` completes; if `n` exceeds
the old capacity then `capacity()` is `2 * n + 1` afterwards, and otherwise
`capacity()` is unchanged, so that shrinking never reduces the capacity. -/
theorem resize_capacity_policy (s : Store T) (v : Nat) (n : Int) (arr : List T)
    (hown : Owns s v arr) (hinv : size s v ≤ capacity s v)
    (hroom : n ≤ capacity s v ∨ 2 * n + 1 ≤ INT_MAX) :
    ∃ s1 : Store T, resize s v n = .ok s1 ∧
      (n > capacity s v → capacity s1 v = 2 * n + 1 ∧ capacity s1 v ≥ 2 * n + 1) ∧
      (n ≤ capacity s v → capacity s1 v = capacity s v) ∧
      capacity s v ≤ capacity s1 v := by
  have hcap : 0 ≤ (s.vec v).theCapacity := by rw [← hown.2]; omega
  unfold size capacity at *
  obtain ⟨s1, arr1, hr, _, _, hcap1, _⟩ := resize_spec s v n arr hown hinv hroom
  refine ⟨s1, hr, ?_, ?_, ?_⟩
  · intro h
    rw [hcap1, if_pos h]
    exact ⟨rfl, le_refl _⟩
  · intro h
    rw [hcap1, if_neg (by omega)]
  · rw [hcap1]
    split_ifs <;> omega

/-- Witness of the amended C17 on the `Vector` holding 1, 2, 3, with capacity
16: `resize(40)` gives capacity 81, `resize(2)` leaves the capacity at 16. -/
theorem resize_capacity_policy_witness :
    Owns filledStore 0 ((1 : Int) :: 2 :: 3 :: List.replicate 13 0) ∧
    size filledStore 0 ≤ capacity filledStore 0 ∧
    (40 ≤ capacity filledStore 0 ∨ (2 : Int) * 40 + 1 ≤ INT_MAX) ∧
    (∃ s1 : Store Int, resize filledStore 0 40 = .ok s1 ∧
      (40 > capacity filledStore 0 → capacity s1 0 = 2 * 40 + 1 ∧
        capacity s1 0 ≥ 2 * 40 + 1) ∧
      (40 ≤ capacity filledStore 0 → capacity s1 0 = capacity filledStore 0) ∧
      capacity filledStore 0 ≤ capacity s1 0) ∧
    (∃ s1 : Store Int, resize filledStore 0 2 = .ok s1 ∧
      (2 > capacity filledStore 0 → capacity s1 0 = 2 * 2 + 1 ∧ capacity s1 0 ≥ 2 * 2 + 1) ∧
      (2 ≤ capacity filledStore 0 → capacity s1 0 = capacity filledStore 0) ∧
      capacity filledStore 0 ≤ capacity s1 0) ∧
    40 > capacity filledStore 0 ∧ 2 ≤ capacity filledStore 0 :=
  ⟨⟨rfl, rfl⟩, by decide, by decide,
    resize_capacity_policy filledStore 0 40 ((1 : Int) :: 2 :: 3 :: List.replicate 13 0)
      ⟨rfl, rfl⟩ (by decide) (by decide),
    resize_capacity_policy filledStore 0 2 ((1 : Int) :: 2 :: 3 :: List.replicate 13 0)
      ⟨rfl, rfl⟩ (by decide) (by decide),
    by decide, by decide⟩

/-- C18 fails as stated: for `N = 17 * 2^26 = 1140850688` the run of `N`
`push_back` calls on the `Vector` of `main`, constructed with initial size 0,
does not complete, so `capacity()` does not become `17 * 2^27 - 1`: that
number, `2281701375`, is no `int`, and the call that would reserve it has
undefined behaviour. -/
theorem push_back_capacity_closed_form_counterexample :
    construct (emptyStore Int) 0 0 = .ok mainStore ∧
    (List.replicate 1140850688 (2 : Int)).length = 1140850688 ∧
    ¬ ((1140850688 : Int) ≤ 17 * 2 ^ 26 - 1) ∧ (1140850688 : Int) ≤ 17 * 2 ^ 27 - 1 ∧
    INT_MAX < 17 * 2 ^ 27 - 1 ∧
    pushAll mainStore 0 (List.replicate 1140850688 (2 : Int)) = .error .undefinedBehaviour ∧
    ¬ ∃ s1 : Store Int,
      pushAll mainStore 0 (List.replicate 1140850688 (2 : Int)) = .ok s1 ∧
        capacity s1 0 = 17 * 2 ^ 27 - 1 := by
  have h := (pushAll_overflow mainStore 0 (List.replicate 1140850688 (2 : Int))
    ⟨List.replicate 16 (0 : Int), ⟨rfl, rfl⟩, rfl, by decide,
      fun i hi => absurd hi (Nat.not_lt_zero i)⟩
    rfl (List.length_replicate _ _)).1
  refine ⟨by rfl, List.length_replicate _ _, by norm_num, by norm_num,
    by unfold INT_MAX; norm_num, h, ?_⟩
  rintro ⟨s1, hc, _⟩
  rw [h] at hc
  cases hc

/-- C18, amended: closed form of the capacity under appends.  For every list
of `N <= 17 * 2^26 - 1 = 1140850687` values, the `N` `push_back` calls on a
`Vector` constructed with initial size 0 complete, and after them `capacity()`
is `17 * 2^k - 1` for the least natural number `k` with `N <= 17 * 2^k - 1`;
hence `capacity() <= max(16, 2 * N - 1)`. -/
theorem push_back_capacity_closed_form (s : Store T) (v : Nat) (xs : List T)
    (hN : xs.length ≤ 1140850687) :
    ∃ (s0 s1 : Store T) (k : Nat), construct s v 0 = .ok s0 ∧ pushAll s0 v xs = .ok s1 ∧
      capacity s1 v = 17 * 2 ^ k - 1 ∧ (xs.length : Int) ≤ 17 * 2 ^ k - 1 ∧
      (∀ j : Nat, j < k → ¬ ((xs.length : Int) ≤ 17 * 2 ^ j - 1)) ∧
      capacity s1 v ≤ max 16 (2 * (xs.length : Int) - 1) := by
  obtain ⟨s0, hc, hholds0, hvec0⟩ := Holds.after_construct s v
  obtain ⟨s1, c, k, _, hall, _, hk, hle, hleast, _, h2⟩ :=
    pushAll_closed_form s0 v xs hholds0 (by rw [hvec0]) hN
  unfold capacity
  refine ⟨s0, s1, k, hc, hall, hk, hle, ?_, ?_⟩
  · intro j hj hcontra
    have := hleast j hj
    omega
  · rcases h2 with h2 | h2
    · rw [h2]; exact le_max_left _ _
    · exact le_trans (by omega) (le_max_right _ _)

/-- Witness of the amended C18: 40 values pushed on a `Vector` constructed in
the empty store give capacity `17 * 2^2 - 1 = 67`. -/
theorem push_back_capacity_closed_form_witness :
    (List.replicate 40 (7 : Int)).length ≤ 1140850687 ∧
    (∃ (s0 s1 : Store Int) (k : Nat), construct (emptyStore Int) 0 0 = .ok s0 ∧
      pushAll s0 0 (List.replicate 40 7) = .ok s1 ∧
      capacity s1 0 = 17 * 2 ^ k - 1 ∧
      ((List.replicate 40 (7 : Int)).length : Int) ≤ 17 * 2 ^ k - 1 ∧
      (∀ j : Nat, j < k → ¬ (((List.replicate 40 (7 : Int)).length : Int) ≤ 17 * 2 ^ j - 1)) ∧
      capacity s1 0 ≤ max 16 (2 * ((List.replicate 40 (7 : Int)).length : Int) - 1)) ∧
    capacity (storeOr (pushAll mainStore 0 (List.replicate 40 7)) mainStore) 0 = 67 :=
  ⟨by decide,
    push_back_capacity_closed_form (emptyStore Int) 0 (List.replicate 40 7) (by decide),
    by rfl⟩

/-- C19: indexed assignment is a point update.  For every `Vector` with
`size() <= capacity()`, every index `i` with `0 <= i < size()` and every value
`x`, the assignment `v[i] = x` completes; afterwards reading `v[i]` returns
`x`, reading `v[j]` for every other index `j` gives what it gave before, and
`size()` and `capacity()` are unchanged. -/
theorem indexed_assignment_point_update (s : Store T) (v : Nat) (i : Int) (x : T)
    (arr : List T) (hown : Owns s v arr) (hinv : size s v ≤ capacity s v) (hi0 : 0 ≤ i)
    (hi : i < size s v) :
    ∃ s1 : Store T, assignIndex s v i x = .ok s1 ∧ index s1 v i = .ok x ∧
      (∀ j : Int, j ≠ i → index s1 v j = index s v j) ∧
      size s1 v = size s v ∧ capacity s1 v = capacity s v := by
  unfold size capacity at *
  have hlen := hown.2
  have hlt : i.toNat < arr.length := by omega
  have hplt := s.cell_lt _ arr hown.1
  have hw := writeAt_live s (s.vec v).objects arr i.toNat x hown.1 hlt
  rw [Int.toNat_of_nonneg hi0] at hw
  have hcell : (s.setHeap (s.vec v).objects (some (arr.set i.toNat x))).cell (s.vec v).objects
      = some (arr.set i.toNat x) := Store.cell_setHeap_same _ _ _ hplt
  refine ⟨_, hw, ?_, ?_, rfl, rfl⟩
  · have hneg : ¬ i < 0 := by omega
    simp only [index, readAt, Store.setHeap_vec, hcell, hneg, if_false,
      List.getElem?_set_self hlt]
  · intro j hj
    simp only [index, readAt, Store.setHeap_vec, hcell, hown.1]
    by_cases hjneg : j < 0
    · simp only [hjneg, if_true]
    · have hne : i.toNat ≠ j.toNat := by omega
      simp only [hjneg, if_false, List.getElem?_set_ne hne]

/-- Witness of C19: `v[1] = 9` on the `Vector` holding 1, 2, 3. -/
theorem indexed_assignment_point_update_witness :
    Owns filledStore 0 ((1 : Int) :: 2 :: 3 :: List.replicate 13 0) ∧
    size filledStore 0 ≤ capacity filledStore 0 ∧ (0 : Int) ≤ 1 ∧ 1 < size filledStore 0 ∧
    ∃ s1 : Store Int, assignIndex filledStore 0 1 9 = .ok s1 ∧ index s1 0 1 = .ok 9 ∧
      (∀ j : Int, j ≠ 1 → index s1 0 j = index filledStore 0 j) ∧
      size s1 0 = size filledStore 0 ∧ capacity s1 0 = capacity filledStore 0 :=
  ⟨⟨rfl, rfl⟩, by decide, by decide, by decide,
    indexed_assignment_point_update filledStore 0 1 9
      ((1 : Int) :: 2 :: 3 :: List.replicate 13 0) ⟨rfl, rfl⟩ (by decide) (by decide)
      (by decide)⟩

end Claims

end DataStructure
